import Mathlib

/-!
Verification of the reward-composition and greedy-selection engine of
`lsst/sims_featureScheduler` against its natural-language specification.

The Python sources are shallowly embedded:

* IEEE-754 double values are modelled by the type `F` below: exact rationals
  plus the special values `+inf`, `-inf` and `nan`.  Rounding is not modelled
  (arithmetic on finite values is exact), but every special-value rule that the
  scheduler's control flow depends on (comparisons with `nan`, infinity
  propagation, `np.isinf`, IEEE equality) is.
* numpy arrays are `List F`; fancy indexing, boolean-mask assignment and
  `np.where` are embedded as `Option`-valued helpers, where `none` models a
  raised Python exception (`IndexError`, `TypeError`, broadcast errors, ...).
* numpy masked arrays are a data list together with a `List Bool` mask.
* Stateful Python objects become structures; a method that mutates attributes
  becomes a function returning the updated structure.  External collaborators
  (healpy interpolation, coordinate transforms, the TSP solver) are opaque
  function-valued fields of the state, exactly as the spec treats them
  ("consumed as a black-box function").
-/

attribute [local semireducible] Rat.add Rat.mul Rat.sub Rat.inv

/-- A floating-point value: an exact rational, an infinity, or NaN. -/
inductive F where
  | fin : ℚ → F
  | pinf : F
  | ninf : F
  | nan : F
deriving DecidableEq, Repr

namespace F

/-- IEEE addition (exact on finite values). -/
def add : F → F → F
  | nan, _ => nan
  | _, nan => nan
  | fin a, fin b => fin (a + b)
  | fin _, pinf => pinf
  | fin _, ninf => ninf
  | pinf, fin _ => pinf
  | ninf, fin _ => ninf
  | pinf, pinf => pinf
  | ninf, ninf => ninf
  | pinf, ninf => nan
  | ninf, pinf => nan

/-- IEEE negation. -/
def neg : F → F
  | nan => nan
  | fin a => fin (-a)
  | pinf => ninf
  | ninf => pinf

/-- IEEE subtraction. -/
def sub (a b : F) : F := add a (neg b)

/-- IEEE multiplication (exact on finite values; `0 * inf = nan`). -/
def mul : F → F → F
  | nan, _ => nan
  | _, nan => nan
  | fin a, fin b => fin (a * b)
  | fin a, pinf => if 0 < a then pinf else if a < 0 then ninf else nan
  | fin a, ninf => if 0 < a then ninf else if a < 0 then pinf else nan
  | pinf, fin b => if 0 < b then pinf else if b < 0 then ninf else nan
  | ninf, fin b => if 0 < b then ninf else if b < 0 then pinf else nan
  | pinf, pinf => pinf
  | pinf, ninf => ninf
  | ninf, pinf => ninf
  | ninf, ninf => pinf

/-- IEEE division (zeros are unsigned here, so `x/0` follows the sign of `x`,
and `0/0 = nan`; the scheduler never branches on the sign of a zero). -/
def div : F → F → F
  | nan, _ => nan
  | _, nan => nan
  | fin a, fin b =>
      if b = 0 then (if 0 < a then pinf else if a < 0 then ninf else nan)
      else fin (a / b)
  | fin _, pinf => fin 0
  | fin _, ninf => fin 0
  | pinf, fin b => if b < 0 then ninf else pinf
  | ninf, fin b => if b < 0 then pinf else ninf
  | pinf, pinf => nan
  | pinf, ninf => nan
  | ninf, pinf => nan
  | ninf, ninf => nan

/-- IEEE `<` (false whenever an operand is NaN). -/
def lt : F → F → Bool
  | nan, _ => false
  | _, nan => false
  | fin a, fin b => decide (a < b)
  | ninf, ninf => false
  | ninf, _ => true
  | _, ninf => false
  | pinf, _ => false
  | fin _, pinf => true

/-- IEEE `<=` (false whenever an operand is NaN). -/
def le : F → F → Bool
  | nan, _ => false
  | _, nan => false
  | fin a, fin b => decide (a ≤ b)
  | ninf, _ => true
  | _, ninf => false
  | _, pinf => true
  | pinf, fin _ => false

/-- IEEE `>`. -/
def gt (a b : F) : Bool := lt b a

/-- IEEE `>=`. -/
def ge (a b : F) : Bool := le b a

/-- IEEE `==` (false whenever an operand is NaN, even `nan == nan`). -/
def beq : F → F → Bool
  | nan, _ => false
  | _, nan => false
  | fin a, fin b => decide (a = b)
  | pinf, pinf => true
  | ninf, ninf => true
  | _, _ => false

/-- IEEE `!=` (true whenever an operand is NaN). -/
def bne (a b : F) : Bool := !(beq a b)

/-- `np.isinf`. -/
def isInf : F → Bool
  | pinf => true
  | ninf => true
  | _ => false

/-- `np.abs`. -/
def fabs : F → F
  | nan => nan
  | fin a => fin |a|
  | pinf => pinf
  | ninf => pinf

/-- Binary maximum as used by the `np.max` reduction: NaN propagates. -/
def fmax (a b : F) : F :=
  if a = nan ∨ b = nan then nan else if lt a b then b else a

/-- Binary minimum as used by the `np.min` reduction: NaN propagates. -/
def fmin (a b : F) : F :=
  if a = nan ∨ b = nan then nan else if lt b a then b else a

/-- The total order used by numpy's sorting routines: `-inf` first, then the
finite values, then `+inf`, with NaN sorted to the end. -/
def sortLE : F → F → Bool
  | ninf, _ => true
  | _, ninf => false
  | fin a, fin b => decide (a ≤ b)
  | fin _, _ => true
  | _, fin _ => false
  | pinf, _ => true
  | _, pinf => false
  | nan, nan => true

end F

/-- `healpy.UNSEEN`, the sentinel marking a cell invalid.  In the sources it is
the double closest to `-1.6375e30`; only its identity (equality comparisons
with itself) matters to the scheduler, so the exact decimal is used here. -/
def UNSEEN : F := F.fin (-16375 * 10 ^ 26)

/-! ### numpy-style array helpers

`none` models a raised Python exception. -/

/-- `a[idx]` for an integer index list (fancy indexing); out-of-range raises. -/
def fancyGet (a : List F) (idx : List ℕ) : Option (List F) :=
  idx.mapM fun i => a.get? i

/-- `a[idx] = v` for an integer index list; out-of-range raises, and a length
mismatch between the index list and the value list is a broadcast error. -/
def fancySet (a : List F) (idx : List ℕ) (v : List F) : Option (List F) :=
  if idx.length = v.length ∧ idx.all (· < a.length) then
    some ((idx.zip v).foldl (fun acc p => acc.set p.1 p.2) a)
  else none

/-- `a[idx] = x` for an integer index list and a scalar value. -/
def fillAt (a : List F) (idx : List ℕ) (x : F) : Option (List F) :=
  fancySet a idx (List.replicate idx.length x)

/-- `np.where(bs)[0]` for a boolean array: the indices that are `true`. -/
def whereTrue (bs : List Bool) : List ℕ :=
  (List.range bs.length).filter fun i => bs.getD i false

/-- `a[bs] = x` for a boolean mask; numpy raises on a length mismatch. -/
def setWhere (a : List F) (bs : List Bool) (x : F) : Option (List F) :=
  if bs.length = a.length then
    some (List.zipWith (fun v b => if b then x else v) a bs)
  else none

/-- Set the listed positions of a boolean array to `true`; out-of-range raises. -/
def boolSetTrue (bs : List Bool) (idx : List ℕ) : Option (List Bool) :=
  if idx.all (· < bs.length) then
    some (idx.foldl (fun acc i => acc.set i true) bs)
  else none

/-- `np.max` of a nonempty array (numpy raises on an empty one). -/
def npMax (l : List F) : Option F :=
  match l with
  | [] => none
  | x :: r => some (r.foldl F.fmax x)

/-- `np.min` of a nonempty array (numpy raises on an empty one). -/
def npMin (l : List F) : Option F :=
  match l with
  | [] => none
  | x :: r => some (r.foldl F.fmin x)

/-- `np.sum` (reduction starting from `0.0`). -/
def npSum (l : List F) : F := l.foldl F.add (F.fin 0)

/-- Insert an integer into a strictly sorted list, keeping it sorted unique. -/
def insertUniq (i : ℕ) : List ℕ → List ℕ
  | [] => [i]
  | j :: rest =>
      if i < j then i :: j :: rest
      else if i = j then j :: rest
      else j :: insertUniq i rest

/-- `np.unique`: the distinct values in ascending order. -/
def npUnique (l : List ℕ) : List ℕ :=
  l.foldl (fun acc i => insertUniq i acc) []

/-- Stable insertion of index `i` into an index list ascending by `key`;
equal keys keep earlier-inserted indices first. -/
def insertByKey (key : ℕ → F) (i : ℕ) : List ℕ → List ℕ
  | [] => [i]
  | j :: rest =>
      if F.sortLE (key j) (key i) then j :: insertByKey key i rest
      else i :: j :: rest

/-- `np.argsort`, modelled as a stable ascending sort of the indices.  (For the
short arrays appearing in the claims numpy's introsort degenerates to its
stable insertion sort, so tie order matches this model.) -/
def argsortAsc (vals : List F) : List ℕ :=
  (List.range vals.length).foldl
    (fun acc i => insertByKey (fun k => vals.getD k F.nan) i acc) []

/-- `np.argsort(vals)[::-1]`: descending order, ties by descending index. -/
def argsortDesc (vals : List F) : List ℕ := (argsortAsc vals).reverse

/-! ### C10: `set_default_nside` (src/python/lsst/sims/featureScheduler/utils.py 18-31)

The Python function stores its default as an attribute on its own function
object.  The state below carries both attribute slots the code mentions: the
one it *tests* (`nside`) and the one it *assigns* (`side`). -/

/-- The attributes of the `set_default_nside` function object.  `none` means
the attribute has not been assigned (reading it raises `AttributeError`). -/
structure NsideState where
  nsideAttr : Option ℕ
  sideAttr : Option ℕ
deriving DecidableEq, Repr

/-- Fresh function object: neither attribute assigned yet. -/
def NsideState.initial : NsideState := ⟨none, none⟩

/-- `set_default_nside(nside=None)`:
`if not hasattr(set_default_nside, 'nside'):` (tests the never-assigned
attribute `nside`) `if nside is None: nside = 64; set_default_nside.side =
nside`; `return set_default_nside.side`.  The returned `Option ℕ` is `none`
when reading the `side` attribute would raise `AttributeError`. -/
def set_default_nside (st : NsideState) (nside : Option ℕ) : NsideState × Option ℕ :=
  if st.nsideAttr.isSome then
    (st, st.sideAttr)
  else
    let n := nside.getD 64
    let st' : NsideState := { st with sideAttr := some n }
    (st', st'.sideAttr)

/-- Run a sequence of calls, collecting the final state and every return. -/
def runNsideCalls (calls : List (Option ℕ)) : NsideState × List (Option ℕ) :=
  calls.foldl
    (fun acc c =>
      let r := set_default_nside acc.1 c
      (r.1, acc.2 ++ [r.2]))
    (NsideState.initial, [])

lemma runNsideCalls_foldl_nsideAttr (calls : List (Option ℕ))
    (st : NsideState) (outs : List (Option ℕ)) (h : st.nsideAttr = none) :
    (calls.foldl
      (fun acc c =>
        let r := set_default_nside acc.1 c
        (r.1, acc.2 ++ [r.2])) (st, outs)).1.nsideAttr = none := by
  induction calls generalizing st outs with
  | nil => exact h
  | cons c rest ih =>
      simp only [List.foldl_cons]
      apply ih
      simp [set_default_nside, h]

lemma runNsideCalls_foldl_outputs (calls : List (Option ℕ))
    (st : NsideState) (outs : List (Option ℕ)) (h : st.nsideAttr = none) :
    (calls.foldl
      (fun acc c =>
        let r := set_default_nside acc.1 c
        (r.1, acc.2 ++ [r.2])) (st, outs)).2
      = outs ++ calls.map (fun c => some (c.getD 64)) := by
  induction calls generalizing st outs with
  | nil => simp
  | cons c rest ih =>
      simp only [List.foldl_cons, List.map_cons]
      rw [ih _ _ (by simp [set_default_nside, h])]
      simp [set_default_nside, h]

/-- C10: over any sequence of calls, every call returns exactly its own
argument (or 64 for an argument-less call); a default registered by an earlier
call is never returned, because the guard tests the attribute `nside` while
the code only ever assigns the attribute `side`. -/
theorem C10_set_default_nside_never_returns_stored
    (calls : List (Option ℕ)) :
    (runNsideCalls calls).2 = calls.map (fun c => some (c.getD 64)) := by
  unfold runNsideCalls
  simpa using runNsideCalls_foldl_outputs calls NsideState.initial [] rfl

/-- C10 instance: `set_default_nside(32)` followed by an argument-less call
returns 32 and then 64 — the stored 32 is not returned. -/
theorem C10_set_default_nside_instance :
    (runNsideCalls [some 32, none]).2 = [some 32, some 64] := by
  decide

/-! ### `Target_map_modulo_basis_function`
(src/python/lsst/sims/featureScheduler/basis_functions/rolling_funcs.py) -/

/-- Python list indexing, which accepts negative indices from the end. -/
def pyGet {α : Type} (a : List α) (i : ℤ) : Option α :=
  if 0 ≤ i then a.get? i.toNat
  else if (-i).toNat ≤ a.length then a.get? (a.length - (-i).toNat)
  else none

/-- Modelled from the spec: `utils.season_calc` is not among the provided
sources (only its call site is).  Per the spec, epoch/season-aware units
"compute, per cell, an epoch index from the current time plus a per-cell phase
offset and an optional modulus; cells with epoch beyond a configured cap are
clamped to the last defined epoch" — the last defined epoch being the
designated fallback map at index `-1`. -/
def season_calc (night offset : ℤ) (modulo : ℕ) (max_season : Option ℤ) : ℤ :=
  let raw := night + offset
  match max_season with
  | some m => if m < raw then -1 else raw % (modulo : ℤ)
  | none => raw % (modulo : ℤ)

/-- The state of a `Target_map_modulo_basis_function` object.  The
`survey_features` dictionary built in `__init__` holds, for each season index
`0 .. len(target_maps)-2` and for `-1`, a per-cell observation-count map
(`N_obs_%i`, here `feat_N_obs` / `feat_N_obs_last`) and a scalar count of all
observations in that season (`N_obs_count_all_%i`, here `feat_count` /
`feat_count_last`).  The feature contents themselves are history state
(modelled from the spec: the `features` module is not among the sources). -/
structure TargetMapModulo where
  npix : ℕ
  target_maps : List (List F)
  norm_factor : F
  out_of_bounds_val : F
  season_modulo : ℕ
  max_season : Option ℤ
  day_offset : List ℤ
  feat_N_obs : List (List F)
  feat_N_obs_last : List F
  feat_count : List F
  feat_count_last : F

/-- Lookup of `self.survey_features['N_obs_%i' % season]`; a season outside
the keys built by `__init__` raises `KeyError` (`none`). -/
def lookupNObs (b : TargetMapModulo) (s : ℤ) : Option (List F) :=
  if s = -1 then some b.feat_N_obs_last
  else if 0 ≤ s then b.feat_N_obs.get? s.toNat
  else none

/-- Lookup of `self.survey_features['N_obs_count_all_%i' % season]`. -/
def lookupCount (b : TargetMapModulo) (s : ℤ) : Option F :=
  if s = -1 then some b.feat_count_last
  else if 0 ≤ s then b.feat_count.get? s.toNat
  else none

/-- `self.out_of_bounds_area = np.where(self.target_maps[0] == 0)[0]`
(computed in `__init__` from the first map only). -/
def out_of_bounds_area (b : TargetMapModulo) : List ℕ :=
  whereTrue ((b.target_maps.headD []).map fun x => F.beq x (F.fin 0))

/-- The per-cell seasons: `utils.season_calc(conditions.night,
offset=self.day_offset, modulo=self.season_modulo, max_season=self.max_season)`. -/
def seasonsOf (b : TargetMapModulo) (night : ℤ) : List ℤ :=
  b.day_offset.map fun off => season_calc night off b.season_modulo b.max_season

/-- Accumulator for the `for season in np.unique(seasons)` loop. -/
structure SeasonAcc where
  composite_target : List F
  composite_nobs : List F
  composite_goal_N : List F

/-- One iteration of the season loop of `_calc_value`:
`season_indx = np.where(seasons == season)[0]` (indices into the full-length
season array), then the three fancy-indexed assignments of the source.  Note
that the composite arrays have length `len(indx)`, so a `season_indx` entry
beyond that length raises `IndexError` (`none`). -/
def seasonStep (b : TargetMapModulo) (seasons : List ℤ) (acc : SeasonAcc)
    (season : ℤ) : Option SeasonAcc := do
  let season_indx := (List.range seasons.length).filter
    fun i => seasons.getD i 0 = season
  let tm ← pyGet b.target_maps season
  let tvals ← fancyGet tm season_indx
  let ct ← fancySet acc.composite_target season_indx tvals
  let nf ← lookupNObs b season
  let nvals ← fancyGet nf season_indx
  let cn ← fancySet acc.composite_nobs season_indx nvals
  let cnt ← lookupCount b season
  let gvals ← fancyGet ct season_indx
  let cg ← fancySet acc.composite_goal_N season_indx
    (gvals.map fun t => F.mul (F.mul t cnt) b.norm_factor)
  return ⟨ct, cn, cg⟩

/-- `Target_map_modulo_basis_function._calc_value(conditions, indx)`.  The
iteration order of `np.unique(seasons)` (sorted unique) is modelled by
`dedup`, which visits the same seasons; distinct seasons write disjoint
position sets, so the order of visits cannot change the result. -/
def calcValuePre (b : TargetMapModulo) (night : ℤ) (indx? : Option (List ℕ)) :
    Option (List F) := do
  let result := List.replicate b.npix (F.fin 0)
  let indx := indx?.getD (List.range b.npix)
  let seasons := seasonsOf b night
  let composite_target ← fancyGet result indx
  let composite_nobs ← fancyGet result indx
  let composite_goal_N ← fancyGet result indx
  let acc ← (seasons.dedup).foldlM (seasonStep b seasons)
    ⟨composite_target, composite_nobs, composite_goal_N⟩
  let cnIndexed ← fancyGet acc.composite_nobs indx
  let diff := List.zipWith F.sub acc.composite_goal_N cnIndexed
  fancySet result indx diff

/-- The final line of `_calc_value`:
`result[self.out_of_bounds_area] = self.out_of_bounds_val` after everything
else (`calcValuePre`). -/
def calcValue (b : TargetMapModulo) (night : ℤ) (indx? : Option (List ℕ)) :
    Option (List F) :=
  (calcValuePre b night indx?).bind
    fun res1 => fillAt res1 (out_of_bounds_area b) b.out_of_bounds_val

/-- Concrete instance for the spec's scenario: a single target map of value
1.0 at cell 0 (and cell 1, so neither cell is out-of-bounds), norm factor 1.0,
5 observations counted in the current epoch at cell 1 and none at cell 0. -/
def exTMM : TargetMapModulo where
  npix := 2
  target_maps := [[F.fin 1, F.fin 1]]
  norm_factor := F.fin 1
  out_of_bounds_val := F.fin (-10)
  season_modulo := 2
  max_season := some (-1)
  day_offset := [0, 0]
  feat_N_obs := []
  feat_N_obs_last := [F.fin 0, F.fin 5]
  feat_count := []
  feat_count_last := F.fin 5

/-- C1: on the full working set the deficit formula holds (cell 0 gets
`1.0*5*1.0 - 0 = 5`), but on the restricted working set `[1]` — which the
docstring advertises and which `Block_survey.calc_reward_function` passes —
`_calc_value` raises `IndexError`: the season positions index the full map
while the composite arrays have the restricted length (and `composite_nobs`
is additionally re-indexed by the original cell indices). -/
theorem C1_restricted_index_raises :
    calcValue exTMM 0 (some [1]) = none ∧
      calcValue exTMM 0 none = some [F.fin 5, F.fin 0] := by
  constructor <;> decide

lemma get?_foldl_set_const (idx : List ℕ) (x : F) :
    ∀ (a : List F) (i : ℕ), i < a.length → (i ∈ idx ∨ a.get? i = some x) →
      (idx.foldl (fun acc j => acc.set j x) a).get? i = some x := by
  induction idx with
  | nil =>
      intro a i hlt h
      rcases h with h | h
      · cases h
      · simpa using h
  | cons j rest ih =>
      intro a i hlt h
      simp only [List.foldl_cons]
      apply ih (a.set j x) i (by simpa using hlt)
      rcases h with h | h
      · rcases List.mem_cons.mp h with rfl | h2
        · right
          exact List.get?_set_eq_of_lt x hlt
        · left
          exact h2
      · right
        by_cases hj : j = i
        · subst hj
          exact List.get?_set_eq_of_lt x hlt
        · rw [List.get?_eq_getElem?, List.getElem?_set_ne hj,
            ← List.get?_eq_getElem?]
          exact h

lemma zip_replicate_foldl_set (idx : List ℕ) (x : F) :
    ∀ a : List F,
      ((idx.zip (List.replicate idx.length x)).foldl
        (fun acc p => acc.set p.1 p.2) a)
        = idx.foldl (fun acc j => acc.set j x) a := by
  induction idx with
  | nil => intro a; rfl
  | cons j rest ih =>
      intro a
      simp only [List.length_cons, List.replicate_succ, List.zip_cons_cons,
        List.foldl_cons]
      exact ih (a.set j x)

lemma fillAt_get {a : List F} {idx : List ℕ} {x : F} {r : List F} {i : ℕ}
    (h : fillAt a idx x = some r) (hi : i ∈ idx) : r.get? i = some x := by
  unfold fillAt fancySet at h
  split at h
  · rename_i hc
    cases h
    rw [zip_replicate_foldl_set]
    have hlt : i < a.length := by
      have := List.all_eq_true.mp hc.2 i hi
      simpa using this
    exact get?_foldl_set_const idx x a i hlt (Or.inl hi)
  · cases h

/-- C8 (amended): whenever `_calc_value` completes on the full working set,
every cell whose weight in the *first* target map is zero is assigned the
configured `out_of_bounds_val` — by default the finite reward `-10.0`, not the
reserved sentinel `UNSEEN`. -/
theorem C8_zero_target_cell_gets_out_of_bounds_val
    (b : TargetMapModulo) (night : ℤ) (res : List F) (i : ℕ)
    (hres : calcValue b night none = some res)
    (hi : i ∈ out_of_bounds_area b) :
    res.get? i = some b.out_of_bounds_val := by
  unfold calcValue at hres
  rcases Option.bind_eq_some.mp hres with ⟨res1, _, hfill⟩
  exact fillAt_get hfill hi

/-- Concrete instance with a zero-weight cell: cell 1 has target weight 0 and
the default `out_of_bounds_val = -10`. -/
def exTMM2 : TargetMapModulo where
  npix := 2
  target_maps := [[F.fin 1, F.fin 0]]
  norm_factor := F.fin 1
  out_of_bounds_val := F.fin (-10)
  season_modulo := 2
  max_season := some (-1)
  day_offset := [0, 0]
  feat_N_obs := []
  feat_N_obs_last := [F.fin 0, F.fin 0]
  feat_count := []
  feat_count_last := F.fin 5

/-- C8 counterexample: at the zero-target cell the basis function returns the
finite value `-10.0`, not the reserved sentinel `UNSEEN`, so the claim that
zero-weight cells are marked sentinel is false on this code. -/
theorem C8_counterexample_finite_not_sentinel :
    calcValue exTMM2 0 none = some [F.fin 5, F.fin (-10)] ∧
      F.fin (-10) ≠ UNSEEN := by
  constructor <;> decide

/-- C8 witness: the amended theorem applied to the concrete instance. -/
theorem C8_zero_target_witness :
    calcValue exTMM2 0 none = some [F.fin 5, F.fin (-10)] ∧
      [F.fin 5, F.fin (-10)].get? 1 = some (F.fin (-10)) :=
  ⟨by decide,
    C8_zero_target_cell_gets_out_of_bounds_val exTMM2 0 _ 1 (by decide)
      (by decide)⟩

/-! ### Observation records (`utils.empty_observation`)

Only the fields that the embedded code paths read or write are modelled; the
numpy record in the sources carries further telemetry fields that none of the
embedded methods touch. -/

structure Obs where
  RA : F := F.fin 0
  dec : F := F.fin 0
  rotSkyPos : F := F.fin 0
  filt : String := ""
  nexp : F := F.fin 0
  exptime : F := F.fin 0
  field_id : ℤ := 0
  survey_id : ℤ := 0
  note : String := ""
  block_id : ℤ := 0
deriving DecidableEq, Repr

/-- `utils.empty_observation()`: a fresh zero-filled record. -/
def empty_observation : Obs := {}

/-! ### `Scripted_single_block_survey`
(src/python/lsst/sims/featureScheduler/surveys/to_port.py 1176-1253) -/

/-- State of a `Scripted_single_block_survey`.  `obs_wanted = none` models the
attribute not existing yet (`set_script` has not been called); reading it then
raises `AttributeError`. -/
structure ScriptedSurvey where
  mjd_target : F
  mjd_tol : F
  reward_val : F
  reward : F
  mjd : F
  obs_wanted : Option (List Obs)
  obs_log : List Bool

/-- `__init__`: stores the target, converts the tolerance from minutes to
days (`mjd_tol/60./24.`), keeps the configured reward in `reward_val` and
initialises the `reward` attribute to `-reward`. -/
def scriptedInit (mjd_target mjd_tol_minutes reward mjd : F) : ScriptedSurvey where
  mjd_target := mjd_target
  mjd_tol := F.div (F.div mjd_tol_minutes (F.fin 60)) (F.fin 24)
  reward_val := reward
  reward := F.neg reward
  mjd := mjd
  obs_wanted := none
  obs_log := []

/-- `_slice2obs`: copy the script row's named columns into a fresh record. -/
def slice2obs (row : Obs) : Obs :=
  { empty_observation with
    RA := row.RA, dec := row.dec, filt := row.filt, exptime := row.exptime,
    nexp := row.nexp, note := row.note, field_id := row.field_id }

/-- `set_script(obs_wanted)`. -/
def set_script (s : ScriptedSurvey) (obs_wanted : List Obs) : ScriptedSurvey :=
  { s with
    obs_wanted := some (obs_wanted.map slice2obs)
    obs_log := List.replicate obs_wanted.length false }

/-- `Scripted_single_block_survey.calc_reward_function`: `-inf` unless the
current MJD is within `mjd_tol` of `mjd_target` and the script is nonempty.
Python's `|` evaluates both operands, so `len(self.obs_wanted)` raises if the
script was never registered. -/
def scriptedCalc (s : ScriptedSurvey) : Option (ScriptedSurvey × F) := do
  let dt := F.sub s.mjd_target s.mjd
  let ow ← s.obs_wanted
  let r := if F.gt (F.fabs dt) s.mjd_tol || (ow.length == 0) then F.ninf
    else s.reward_val
  return ({ s with reward := r }, r)

/-- `Scripted_single_block_survey.__call__`:
`if self.calc_reward_function() == self.reward: return self.obs_wanted
else: return [None]`.  The produced list holds `Option Obs` because the
(unreachable) else branch returns the one-element list `[None]`. -/
def scriptedCall (s : ScriptedSurvey) : Option (ScriptedSurvey × List (Option Obs)) := do
  let (s1, r) ← scriptedCalc s
  if F.beq r s1.reward then
    let ow ← s1.obs_wanted
    return (s1, ow.map some)
  else
    return (s1, [none])

/-- C6 (amended): within the tolerance window with a nonempty script,
`calc_reward_function` reports the configured reward and `__call__` serves
the registered list verbatim; *outside* the window `calc_reward_function`
reports `-inf` but `__call__` still serves the registered list — the guard
compares the freshly computed reward against the attribute it was just stored
in, so it always passes (for a non-NaN reward value), and the empty-handed
branch (which would return `[None]`, not `[]`) is unreachable. -/
theorem C6_scripted_replay (s : ScriptedSurvey) (ow : List Obs)
    (how : s.obs_wanted = some ow) (hnan : s.reward_val ≠ F.nan) :
    (F.gt (F.fabs (F.sub s.mjd_target s.mjd)) s.mjd_tol = false → ow ≠ [] →
      scriptedCalc s = some ({ s with reward := s.reward_val }, s.reward_val) ∧
        scriptedCall s
          = some ({ s with reward := s.reward_val }, ow.map some)) ∧
    (F.gt (F.fabs (F.sub s.mjd_target s.mjd)) s.mjd_tol = true →
      scriptedCalc s = some ({ s with reward := F.ninf }, F.ninf) ∧
        scriptedCall s = some ({ s with reward := F.ninf }, ow.map some)) := by
  constructor
  · intro hwin hne
    have hcalc : scriptedCalc s
        = some ({ s with reward := s.reward_val }, s.reward_val) := by
      simp [scriptedCalc, how, hwin, List.length_eq_zero, hne]
    refine ⟨hcalc, ?_⟩
    have hbeq : F.beq s.reward_val s.reward_val = true := by
      cases h : s.reward_val <;> simp_all [F.beq]
    simp [scriptedCall, hcalc, hbeq, how]
  · intro hout
    have hcalc : scriptedCalc s = some ({ s with reward := F.ninf }, F.ninf) := by
      simp [scriptedCalc, how, hout]
    refine ⟨hcalc, ?_⟩
    simp [scriptedCall, hcalc, F.beq, how]

/-- Concrete scripted survey: target MJD 100, tolerance 15 minutes, reward
`1e6`, one registered observation, polled far outside the window (MJD 200). -/
def exScripted : ScriptedSurvey :=
  set_script (scriptedInit (F.fin 100) (F.fin 15) (F.fin 1000000) (F.fin 200))
    [{ empty_observation with RA := F.fin 1, filt := "r" }]

/-- C6 counterexample: outside the tolerance window the reward is `-inf`, yet
`__call__` still returns the registered (nonempty) script, not an empty list. -/
theorem C6_counterexample_produce_not_empty :
    (scriptedCalc exScripted).map (fun p => p.2) = some F.ninf ∧
      (scriptedCall exScripted).map (fun p => p.2)
        = some [some { empty_observation with RA := F.fin 1, filt := "r" }] ∧
      ([some { empty_observation with RA := F.fin 1, filt := "r" }]
        : List (Option Obs)) ≠ [] := by
  refine ⟨by decide, by decide, by decide⟩

/-- C6 witness: the amended theorem applied to the concrete survey (both the
in-window and the out-of-window branch are exercised; `exScripted` is out of
window, and retiming it to MJD 100 puts it in window). -/
theorem C6_scripted_replay_witness :
    (scriptedCalc exScripted).map (fun p => p.2) = some F.ninf ∧
      (scriptedCall { exScripted with mjd := F.fin 100 }).map (fun p => p.2)
        = some [some { empty_observation with RA := F.fin 1, filt := "r" }] := by
  have h1 := (C6_scripted_replay exScripted
    [{ empty_observation with RA := F.fin 1, filt := "r" }] (by decide)
    (by decide)).2 (by decide)
  have h2 := (C6_scripted_replay { exScripted with mjd := F.fin 100 }
    [{ empty_observation with RA := F.fin 1, filt := "r" }] (by decide)
    (by decide)).1 (by decide) (by decide)
  refine ⟨?_, ?_⟩
  · rw [h1.1]
    rfl
  · rw [h2.2]
    rfl

/-! ### Sorting lemmas for `np.argsort` -/

lemma sortLE_refl (a : F) : F.sortLE a a = true := by
  cases a <;> simp [F.sortLE]

lemma sortLE_total (a b : F) : F.sortLE a b = true ∨ F.sortLE b a = true := by
  cases a <;> cases b <;> simp [F.sortLE] <;> exact le_total _ _

lemma sortLE_trans {a b c : F} (h1 : F.sortLE a b = true)
    (h2 : F.sortLE b c = true) : F.sortLE a c = true := by
  cases a <;> cases b <;> cases c <;> simp_all [F.sortLE]
  exact le_trans h1 h2

/-- The sortedness invariant of a stable ascending argsort: keys ascend, and
indices with equal keys ascend as well. -/
def SortedKey (key : ℕ → F) (l : List ℕ) : Prop :=
  List.Pairwise
    (fun i j => F.sortLE (key i) (key j) = true ∧
      (F.sortLE (key j) (key i) = true → i < j)) l

lemma insertByKey_perm (key : ℕ → F) (i : ℕ) (l : List ℕ) :
    List.Perm (insertByKey key i l) (i :: l) := by
  induction l with
  | nil => simp [insertByKey]
  | cons j rest ih =>
      by_cases h : F.sortLE (key j) (key i) = true
      · simp only [insertByKey, h, if_true]
        exact (ih.cons j).trans (List.Perm.swap i j rest)
      · simp only [insertByKey, h]
        simp

lemma insertByKey_mem {key : ℕ → F} {i : ℕ} {l : List ℕ} {k : ℕ}
    (h : k ∈ insertByKey key i l) : k = i ∨ k ∈ l :=
  by simpa using (insertByKey_perm key i l).mem_iff.mp h

lemma insertByKey_sorted (key : ℕ → F) (i : ℕ) (l : List ℕ)
    (hl : SortedKey key l) (hb : ∀ j ∈ l, j < i) :
    SortedKey key (insertByKey key i l) := by
  induction l with
  | nil =>
      simp [insertByKey, SortedKey]
  | cons j rest ih =>
      have hji : j < i := hb j (by simp)
      rcases hl with _ | ⟨hjrest, hrest⟩
      by_cases h : F.sortLE (key j) (key i) = true
      · simp only [insertByKey, h, if_true]
        refine List.Pairwise.cons ?_ (ih hrest fun k hk => hb k (by simp [hk]))
        intro k hk
        rcases insertByKey_mem hk with rfl | hk2
        · exact ⟨h, fun _ => hji⟩
        · exact hjrest k hk2
      · have hij : F.sortLE (key i) (key j) = true := by
          rcases sortLE_total (key j) (key i) with h1 | h1
          · exact absurd h1 h
          · exact h1
        simp only [insertByKey, h]
        refine List.Pairwise.cons ?_ (List.Pairwise.cons hjrest hrest)
        intro k hk
        rcases List.mem_cons.mp hk with rfl | hk2
        · refine ⟨hij, fun hcon => absurd hcon h⟩
        · have hjk := (hjrest k hk2).1
          refine ⟨sortLE_trans hij hjk, fun hcon => ?_⟩
          have : F.sortLE (key j) (key i) = true := sortLE_trans hjk hcon
          exact absurd this h

/-- The stable ascending argsort of the first `n` indices. -/
def argsortN (key : ℕ → F) (n : ℕ) : List ℕ :=
  (List.range n).foldl (fun acc i => insertByKey key i acc) []

lemma argsortN_succ (key : ℕ → F) (n : ℕ) :
    argsortN key (n + 1) = insertByKey key n (argsortN key n) := by
  unfold argsortN
  rw [List.range_succ, List.foldl_append]
  rfl

lemma argsortN_perm (key : ℕ → F) (n : ℕ) :
    List.Perm (argsortN key n) (List.range n) := by
  induction n with
  | zero => simp [argsortN]
  | succ n ih =>
      rw [argsortN_succ, List.range_succ]
      exact (insertByKey_perm key n _).trans
        ((ih.cons n).trans (List.Perm.symm (List.perm_append_singleton n _)))

lemma argsortN_mem {key : ℕ → F} {n k : ℕ} (h : k ∈ argsortN key n) : k < n := by
  have := (argsortN_perm key n).mem_iff.mp h
  simpa using this

lemma argsortN_sorted (key : ℕ → F) (n : ℕ) : SortedKey key (argsortN key n) := by
  induction n with
  | zero => simp [argsortN, SortedKey]
  | succ n ih =>
      rw [argsortN_succ]
      exact insertByKey_sorted key n _ ih fun j hj => argsortN_mem hj

lemma argsortAsc_eq (vals : List F) :
    argsortAsc vals = argsortN (fun k => vals.getD k F.nan) vals.length := rfl

lemma argsortAsc_length (vals : List F) :
    (argsortAsc vals).length = vals.length := by
  rw [argsortAsc_eq]
  simpa using (argsortN_perm (fun k => vals.getD k F.nan) vals.length).length_eq

lemma argsortDesc_length (vals : List F) :
    (argsortDesc vals).length = vals.length := by
  simp [argsortDesc, argsortAsc_length]

lemma argsortDesc_mem {vals : List F} {k : ℕ} (h : k ∈ argsortDesc vals) :
    k < vals.length := by
  simp only [argsortDesc, List.mem_reverse] at h
  rw [argsortAsc_eq] at h
  exact argsortN_mem h

/-- The reversed argsort is pairwise descending, ties by descending index. -/
lemma argsortDesc_sorted (vals : List F) :
    List.Pairwise
      (fun i j => F.sortLE (vals.getD j F.nan) (vals.getD i F.nan) = true ∧
        (F.sortLE (vals.getD i F.nan) (vals.getD j F.nan) = true → j < i))
      (argsortDesc vals) := by
  rw [argsortDesc, List.pairwise_reverse]
  exact argsortN_sorted _ _

lemma sortedKey_last_max {key : ℕ → F} :
    ∀ {l : List ℕ} {h : ℕ}, SortedKey key l → l.getLast? = some h →
      ∀ k ∈ l, F.sortLE (key k) (key h) = true := by
  intro l
  induction l with
  | nil => intro h _ hh; cases hh
  | cons a rest ih =>
      intro h hs hh k hk
      rcases hs with _ | ⟨ha, hrest⟩
      cases rest with
      | nil =>
          simp only [List.getLast?_singleton, Option.some.injEq] at hh
          subst hh
          rcases List.mem_singleton.mp hk with rfl
          exact sortLE_refl _
      | cons b r =>
          have hh2 : (b :: r).getLast? = some h := by
            rw [List.getLast?_cons_cons] at hh
            exact hh
          rcases List.mem_cons.mp hk with rfl | hk2
          · have hmem : h ∈ b :: r := by
              rcases List.mem_getLast?_eq_getLast (by exact hh2) with ⟨hne, hgl⟩
              rw [hgl]
              exact List.getLast_mem hne
            exact (ha h hmem).1
          · exact ih hrest hh2 k hk2

/-- The element placed first by the reversed argsort has a maximal key. -/
lemma argsortDesc_head_max (vals : List F) (h : ℕ)
    (hh : (argsortDesc vals).head? = some h) :
    ∀ k < vals.length, F.sortLE (vals.getD k F.nan) (vals.getD h F.nan) = true := by
  intro k hk
  have hlast : (argsortAsc vals).getLast? = some h := by
    rw [← List.head?_reverse]
    exact hh
  have hmem : k ∈ argsortAsc vals := by
    rw [argsortAsc_eq]
    exact (argsortN_perm _ _).mem_iff.mpr (by simpa using hk)
  exact sortedKey_last_max (by rw [argsortAsc_eq]; exact argsortN_sorted _ _)
    hlast k hmem

lemma mapM_forall₂ {α β : Type} (g : α → Option β) :
    ∀ {l : List α} {r : List β}, l.mapM g = some r →
      List.Forall₂ (fun a b => g a = some b) l r := by
  intro l
  induction l with
  | nil =>
      intro r h
      cases h
      exact List.Forall₂.nil
  | cons a rest ih =>
      intro r h
      rw [List.mapM_cons] at h
      cases hg : g a with
      | none => rw [hg] at h; cases h
      | some b =>
          rw [hg] at h
          cases hrest : rest.mapM g with
          | none => rw [hrest] at h; cases h
          | some rr =>
              rw [hrest] at h
              cases h
              exact List.Forall₂.cons hg (ih hrest)

/-! ### `Simple_greedy_survey_fields`
(src/python/lsst/sims/featureScheduler/surveys/to_port.py 302-342) -/

/-- State of a `Simple_greedy_survey_fields` at the point where `__call__`
runs with `reward_checked` true: `self.reward` is the masked composite reward
surface (data plus mask — produced by the base-class
`calc_reward_function`, which is not among the sources), `self.field_hp` maps
every catalog field to its healpix cell, and the catalog arrays give each
field's coordinates and id. -/
structure SimpleGreedy where
  reward : List F
  rewardMask : List Bool
  field_hp : List ℕ
  fields_RA : List F
  fields_dec : List F
  fields_id : List ℤ
  block_size : ℕ
  filtername : String

/-- `reward_fields = self.reward[self.field_hp]` followed by
`reward_fields[np.where(reward_fields.mask == True)] = -np.inf`: the per-field
effective rewards, with masked fields forced to `-inf` (the element
assignment also clears their mask, so the subsequent argsort sees plain
data). -/
def simpleGreedyEff (s : SimpleGreedy) : Option (List F) := do
  let rfData ← fancyGet s.reward s.field_hp
  let rfMask ← s.field_hp.mapM fun i => s.rewardMask.get? i
  return List.zipWith (fun v m => if m then F.ninf else v) rfData rfMask

/-- `order = np.argsort(reward_fields)[::-1]; best_fields =
order[0:self.block_size]`. -/
def simpleGreedyBest (s : SimpleGreedy) : Option (List ℕ) :=
  (simpleGreedyEff s).map fun eff => (argsortDesc eff).take s.block_size

/-- The observation record built for one selected field in the emission loop. -/
def simpleGreedyObs (s : SimpleGreedy) (field : ℕ) : Option Obs := do
  let ra ← s.fields_RA.get? field
  let de ← s.fields_dec.get? field
  let fid ← s.fields_id.get? field
  return { empty_observation with
    RA := ra, dec := de, filt := s.filtername, field_id := fid,
    nexp := F.fin 2, exptime := F.fin 30 }

/-- `Simple_greedy_survey_fields.__call__` (with the reward already
computed): emit one observation per selected field, in order. -/
def simpleGreedyCall (s : SimpleGreedy) : Option (List Obs) :=
  (simpleGreedyBest s).bind fun bf => bf.mapM (simpleGreedyObs s)

lemma take_head? {α : Type} {l : List α} {n : ℕ} {h : α}
    (hh : (l.take n).head? = some h) : l.head? = some h := by
  cases n with
  | zero => cases hh
  | succ n => cases l with
    | nil => cases hh
    | cons a r => simpa using hh

/-- C7 (amended): the single-best survey emits at most `block_size`
observations, one per catalog field, ordered by non-increasing effective
reward (masked fields count as `-inf`), starting with a field of maximum
effective reward; among fields of equal reward the field with the *highest*
index is emitted first (the code reverses a stable ascending argsort). -/
theorem C7_single_best_descending_highest_tie
    (s : SimpleGreedy) (eff : List F) (bf : List ℕ) (obs : List Obs)
    (heff : simpleGreedyEff s = some eff)
    (hbf : simpleGreedyBest s = some bf)
    (hobs : simpleGreedyCall s = some obs) :
    obs.length ≤ s.block_size ∧
    bf = (argsortDesc eff).take s.block_size ∧
    List.Pairwise
      (fun i j => F.sortLE (eff.getD j F.nan) (eff.getD i F.nan) = true ∧
        (F.sortLE (eff.getD i F.nan) (eff.getD j F.nan) = true → j < i)) bf ∧
    (∀ h0 ∈ bf.head?, ∀ k < eff.length,
      F.sortLE (eff.getD k F.nan) (eff.getD h0 F.nan) = true) ∧
    List.Forall₂ (fun f o => simpleGreedyObs s f = some o) bf obs := by
  have hbf2 : bf = (argsortDesc eff).take s.block_size := by
    rw [simpleGreedyBest, heff] at hbf
    simpa using hbf.symm
  have hmapm : bf.mapM (simpleGreedyObs s) = some obs := by
    rw [simpleGreedyCall, hbf] at hobs
    simpa using hobs
  have hfa := mapM_forall₂ (simpleGreedyObs s) hmapm
  refine ⟨?_, hbf2, ?_, ?_, hfa⟩
  · rw [← hfa.length_eq, hbf2]
    simpa using Nat.min_le_left _ _
  · rw [hbf2]
    exact (argsortDesc_sorted eff).sublist (List.take_sublist _ _)
  · intro h0 hh0 k hk
    rw [hbf2] at hh0
    exact argsortDesc_head_max eff h0 (take_head? hh0) k hk

/-- Concrete single-best survey with two catalog fields of *equal* effective
reward 7 (one healpix cell per field, nothing masked). -/
def exSG : SimpleGreedy where
  reward := [F.fin 7, F.fin 7]
  rewardMask := [false, false]
  field_hp := [0, 1]
  fields_RA := [F.fin 0, F.fin 1]
  fields_dec := [F.fin 0, F.fin 0]
  fields_id := [0, 1]
  block_size := 25
  filtername := "r"

/-- C7 counterexample: with fields 0 and 1 at equal effective reward, the
emission order is `[1, 0]` — the *highest* field index comes first, not the
lowest as the claim states (ascending argsort is stable, and the code
reverses it). -/
theorem C7_counterexample_tie_highest_first :
    simpleGreedyEff exSG = some [F.fin 7, F.fin 7] ∧
      (simpleGreedyCall exSG).map (fun l => l.map fun o => o.field_id)
        = some [1, 0] := by
  constructor <;> decide

/-- Concrete single-best survey with three fields of distinct rewards and
block size 2. -/
def exSG2 : SimpleGreedy where
  reward := [F.fin 3, F.fin 9, F.fin 5]
  rewardMask := [false, false, false]
  field_hp := [0, 1, 2]
  fields_RA := [F.fin 0, F.fin 10, F.fin 20]
  fields_dec := [F.fin 0, F.fin 0, F.fin 0]
  fields_id := [0, 1, 2]
  block_size := 2
  filtername := "r"

/-- The block `exSG2` emits: fields 1 (reward 9) then 2 (reward 5). -/
def exSG2obs : List Obs :=
  [{ empty_observation with
      RA := F.fin 10
      dec := F.fin 0
      filt := "r"
      field_id := 1
      nexp := F.fin 2
      exptime := F.fin 30 },
   { empty_observation with
      RA := F.fin 20
      dec := F.fin 0
      filt := "r"
      field_id := 2
      nexp := F.fin 2
      exptime := F.fin 30 }]

/-- C7 witness: the amended ordering theorem applied to `exSG2`. -/
theorem C7_single_best_witness :
    simpleGreedyCall exSG2 = some exSG2obs ∧ exSG2obs.length ≤ exSG2.block_size :=
  ⟨by decide,
    (C7_single_best_descending_highest_tie exSG2 [F.fin 3, F.fin 9, F.fin 5]
      [1, 2] exSG2obs (by decide) (by decide) (by decide)).1⟩

/-! ### `Block_survey`
(src/python/lsst/sims/featureScheduler/surveys/to_port.py 347-648)

The composite-reward loop, the alt/az mask competition and the block emission
are embedded below.  External collaborators (healpy interpolation, the
coordinate transforms, trigonometry, the TSP route solver) are opaque
function-valued fields, as the spec prescribes. -/

/-- The value returned by one scoring unit (`bf(indx=indx)`): a numpy array,
possibly a masked array (`mask = some ...`). -/
structure BasisOut where
  data : List F
  mask : Option (List Bool)
deriving DecidableEq, Repr

/-- Union of numpy masked-array masks under arithmetic: the result is masked
iff either operand is. -/
def unionMask : Option (List Bool) → Option (List Bool) → Option (List Bool)
  | none, none => none
  | some m, none => some m
  | none, some m => some m
  | some a, some b => some (List.zipWith (· || ·) a b)

/-- Accumulator of the `for bf, weight in zip(...)` loop of
`calc_reward_function`: the running `self.reward` (`rdata = none` while it is
still the integer `0`), its masked-array mask when it has one, the local
variable `mask`, the running `indx`, and the trace of unit outputs. -/
structure CompAcc where
  rdata : Option (List F)
  rmask : Option (List Bool)
  accMask : List Bool
  indx : List ℕ
  outs : List BasisOut

/-- One iteration of the composite loop:
`basis_value = bf(indx=indx)`;
`mask[np.where(basis_value == hp.UNSEEN)] = True` (a comparison on a masked
array skips masked entries);
`if hasattr(basis_value, 'mask'): mask[np.where(basis_value.mask == True)] = True`;
`self.reward += basis_value*weight` (a length mismatch is a broadcast error);
`if hasattr(self.reward, 'mask'): indx = np.where(self.reward.mask == False)[0]`. -/
def unitWhereUnseen (bv : BasisOut) : List ℕ :=
  (List.range bv.data.length).filter fun i =>
    (match bv.mask with
      | some m => !(m.getD i false)
      | none => true) && F.beq (bv.data.getD i F.nan) UNSEEN

/-- The two mask updates of one loop iteration:
`mask[np.where(basis_value == hp.UNSEEN)] = True` and
`if hasattr(basis_value, 'mask'): mask[np.where(basis_value.mask == True)] = True`. -/
def stepMask (accMask : List Bool) (bv : BasisOut) : Option (List Bool) := do
  let m1 ← boolSetTrue accMask (unitWhereUnseen bv)
  match bv.mask with
  | some bm => boolSetTrue m1 (whereTrue bm)
  | none => some m1

def bfStep (acc : CompAcc) (bfw : (List ℕ → BasisOut) × F) : Option CompAcc := do
  let bv := bfw.1 acc.indx
  -- numpy cannot produce a masked array whose mask and data lengths differ
  let _ ← if (match bv.mask with
    | some m => m.length == bv.data.length
    | none => true) then some () else none
  let m2 ← stepMask acc.accMask bv
  let prod := bv.data.map fun x => F.mul x bfw.2
  let rd ← match acc.rdata with
    | none => some (prod, bv.mask)
    | some d =>
        if d.length = prod.length then
          some (List.zipWith F.add d prod, unionMask acc.rmask bv.mask)
        else none
  let indx2 := match rd.2 with
    | some m => whereTrue (m.map fun b => !b)
    | none => acc.indx
  return ⟨some rd.1, rd.2, m2, indx2, acc.outs ++ [bv]⟩

/-- The composite surface after the loop, the accumulated mask, whether the
`np.isinf` override fired, and the unit outputs observed during the loop. -/
structure CompositeResult where
  data : List F
  cmask : List Bool
  collapsed : Bool
  outs : List BasisOut
deriving DecidableEq, Repr

/-- Lines 477-499 of `Block_survey.calc_reward_function` (identical code
appears in `Vary_expt_survey.calc_reward_function`, minus the `isinf`
override): run the composite loop, then
`self.reward[mask] = hp.UNSEEN` (raises while `self.reward` is still the
integer `0`, i.e. with no scoring units, and on a mask/array length
mismatch);
`self.reward.mask = mask` (`AttributeError` unless some unit returned a
masked array);
`self.reward.fill_value = hp.UNSEEN` (data under the mask is now `UNSEEN`, so
the later `.filled()` equals the data);
`np.any(np.isinf(self.reward))` (data under the mask is `UNSEEN`, never
infinite, so only never-masked cells can trigger the override);
optionally the smoothing pass (the base-class `smooth_reward` is not among
the sources; modelled from the spec as a surface-to-surface local-averaging
pass). -/
def compositeStep (withCollapse : Bool) (npix : ℕ)
    (bfs : List (List ℕ → BasisOut)) (weights : List F)
    (smoothing : Option (List F → List F)) : Option CompositeResult := do
  let init : CompAcc :=
    ⟨none, none, List.replicate npix false, List.range npix, []⟩
  let acc ← (bfs.zip weights).foldlM bfStep init
  let d ← acc.rdata
  let d1 ← setWhere d acc.accMask UNSEEN
  let _ ← acc.rmask
  let collapsed := withCollapse &&
    (List.range npix).any fun i =>
      !(acc.accMask.getD i false) && F.isInf (d1.getD i F.nan)
  let d2 := match smoothing with
    | some f => f d1
    | none => d1
  return ⟨d2, acc.accMask, collapsed, acc.outs⟩

/-- `self.reward` as returned by `calc_reward_function`: either a plain
scalar (`-np.inf` when infeasible) or a masked surface. -/
inductive RewardVal where
  | scalar : F → RewardVal
  | surface : List F → List Bool → RewardVal
deriving DecidableEq, Repr

/-- `self.best_fields`: either the Python int `0` appended for a mask with too
few candidate fields (`placeholder`), or an array of field ids. -/
inductive BestFields where
  | placeholder : BestFields
  | flds : List ℕ → BestFields
deriving DecidableEq, Repr

/-- The IEEE double nearest `np.pi/2`. -/
def piHalfF : F := F.fin (884279719003555 / 562949953421312)

/-- The IEEE double nearest `2*np.pi`. -/
def twoPiF : F := F.fin (884279719003555 / 140737488355328)

/-- The IEEE double nearest `np.pi`. -/
def piF : F := F.fin (884279719003555 / 281474976710656)

/-- The IEEE double nearest `0.1`. -/
def pointOneF : F := F.fin (3602879701896397 / 36028797018963968)

/-- Python-style float modulus; only the finite case is exercised by the
embedded code (the result feeds nothing but opaque projection functions). -/
def F.fmod : F → F → F
  | F.fin a, F.fin b => if b = 0 then F.nan else F.fin (a - b * ((a / b).floor : ℤ))
  | _, _ => F.nan

/-- `np.mean` (the mean of an empty array is NaN). -/
def meanF (l : List F) : F :=
  match l with
  | [] => F.nan
  | _ => F.div (npSum l) (F.fin l.length)

/-- Modelled from the spec: `utils.int_binned_stat` is not among the provided
sources (only its call sites are).  Per the spec's masked-block reduction the
per-field value is the statistic of the per-cell values grouped by field id;
the unique ids come out sorted, as `np.unique` would produce. -/
def int_binned_stat (ids : List ℕ) (vals : List F) (stat : List F → F) :
    List ℕ × List F :=
  let u := npUnique ids
  (u, u.map fun f => stat (((ids.zip vals).filter fun p => p.1 = f).map (·.2)))

/-- Modelled from the spec: `utils.max_reject` is not among the provided
sources.  The call site's comment ("Use the max reward, ... so should use max
or mean") fixes the statistic as the per-field maximum; NaN propagates as in
`np.max`. -/
def max_reject (l : List F) : F :=
  match l with
  | [] => F.nan
  | x :: r => r.foldl F.fmax x

/-- The full state of a `Block_survey`.  Configuration fields are the
attributes assigned in `__init__`; the `feature` fields hold the current
values of the `extra_features` read by `_check_feasability` and `__call__`;
the opaque function fields are the external collaborators; the trailing
fields are the attributes mutated by `calc_reward_function` and `__call__`
(`reward = none` / `best_fields = none` model the attribute not having been
assigned yet). -/
structure BlockSurvey where
  npix : ℕ
  basis_functions : List (List ℕ → BasisOut)
  basis_weights : List F
  smoothing_kernel : Option (List F → List F)
  alt_az_masks : List (List F)
  hp2fields : List ℕ
  nvisit_block : ℕ
  interp : List F → List F → List F → List F
  altaz_alt : List F
  altaz_az : List F
  mounted_filters : List String
  filter_set : List String
  filter2_set : List String
  filter2 : Option String
  sunAlt : F
  sun_alt_limit : F
  mjd : F
  next_twilight_start : F
  time_needed : F
  fields_RA : List F
  fields_dec : List F
  lat : F
  lon : F
  lmst : F
  current_filter : String
  filtername : String
  nexp : F
  exptime : F
  survey_note : String
  tag_fields : Bool
  tag_map : List ℕ
  radec2altaz : F → F → F × F
  gnomonic : F → F → F → F → F × F
  fcos : F → F
  fsin : F → F
  fatan2 : F → F → F
  fsqrt : F → F
  tsp : List (F × F) → List ℕ
  reward_checked : Bool
  reward : Option RewardVal
  best_fields : Option BestFields
  counter : ℤ

/-- `set(a).issubset(set(b))` for the filter-name sets. -/
def subsetOf (a b : List String) : Bool := a.all (b.contains ·)

/-- `Block_survey._check_feasability` (lines 452-469): both filter sets
mounted, sun below the limit, and enough time before twilight. -/
def blockFeasible (s : BlockSurvey) : Bool :=
  let fm0 := subsetOf s.filter_set s.mounted_filters
  let fm := match s.filter2 with
    | some _ => fm0 && subsetOf s.filter2_set s.mounted_filters
    | none => fm0
  if !fm then false
  else if F.gt s.sunAlt s.sun_alt_limit then false
  else if F.lt (F.sub s.next_twilight_start s.mjd) s.time_needed then false
  else true

/-- `mask_to_radec = hp.get_interp_val(alt_az_mask, np.pi/2 - alt, az)`:
the external interpolation applied to the mask and the current per-cell
alt/az coordinates. -/
def mask_to_radec (s : BlockSurvey) (am : List F) : List F :=
  s.interp am (s.altaz_alt.map fun a => F.sub piHalfF a) s.altaz_az

/-- `good = np.where((self.reward != hp.UNSEEN) & (mask_to_radec > 0.))`:
the candidate cells of one alt/az mask — unmasked, not sentinel-valued, and
inside the mask (`np.where` on the masked comparison skips masked cells). -/
def goodCells (s : BlockSurvey) (cr : CompositeResult) (am : List F) :
    List ℕ :=
  (List.range s.npix).filter fun i =>
    !(cr.cmask.getD i false) && F.bne (cr.data.getD i F.nan) UNSEEN &&
      F.gt ((mask_to_radec s am).getD i F.nan) (F.fin 0)

/-- `self.reward.filled()` with fill value `UNSEEN`. -/
def filledData (s : BlockSurvey) (cr : CompositeResult) : List F :=
  (List.range s.npix).map fun i =>
    if cr.cmask.getD i false then UNSEEN else cr.data.getD i F.nan

/-- The sorted unique candidate fields of one alt/az mask:
`ufields = np.unique(self.hp2fields[self.hpids[good]])`. -/
def maskUfields (s : BlockSurvey) (cr : CompositeResult) (am : List F) :
    Option (List ℕ) := do
  let fields ← (goodCells s cr am).mapM fun i => s.hp2fields.get? i
  return npUnique fields

/-- `int_binned_stat(self.hp2fields[observed_hp],
self.reward[observed_hp].filled(), statistic=max_reject)` where
`observed_hp = np.isin(self.hp2fields, ufields)`. -/
def maskBinned (s : BlockSurvey) (cr : CompositeResult) (am : List F) :
    Option (List ℕ × List F) := do
  let ufields ← maskUfields s cr am
  let pairs := (s.hp2fields.zip (filledData s cr)).filter
    fun p => ufields.contains p.1
  return int_binned_stat (pairs.map (·.1)) (pairs.map (·.2)) max_reject

/-- The fields surviving the `-inf` toss
(`good_fields = np.where(reward_by_field > -np.inf)`), paired with their
rewards. -/
def maskGoodPairs (s : BlockSurvey) (cr : CompositeResult) (am : List F) :
    Option (List (ℕ × F)) := do
  let bres ← maskBinned s cr am
  return (bres.1.zip bres.2).filter fun p => F.gt p.2 F.ninf

/-- Per-mask result: the candidate reward map, the selected field block (or
the int-`0` placeholder) and the aggregate reward. -/
structure MaskStat where
  reward_map : List F
  pointings : BestFields
  reward : F
deriving DecidableEq, Repr

/-- The body of the `for alt_az_mask in self.alt_az_masks` loop (lines
505-540): build the blank map `self.reward*0 + hp.UNSEEN`, copy the good
cells' rewards, bin the good fields, toss `-inf` fields, and either flag the
mask infeasible (fewer fields than `nvisit_block`) or take the top
`nvisit_block` fields by reward. -/
def maskEval (s : BlockSurvey) (cr : CompositeResult) (am : List F) :
    Option MaskStat := do
  let mtr := mask_to_radec s am
  let _ ← if mtr.length == s.npix then some () else none
  let rm0 := cr.data.map fun x => F.add (F.mul x (F.fin 0)) UNSEEN
  let good := goodCells s cr am
  let gvals ← fancyGet cr.data good
  let rm ← fancySet rm0 good gvals
  let gp ← maskGoodPairs s cr am
  if gp.length < s.nvisit_block then
    return ⟨rm, BestFields.placeholder, F.ninf⟩
  else
    let vals := gp.map (·.2)
    let field_order := (argsortDesc vals).take s.nvisit_block
    let chosen ← field_order.mapM fun k => (gp.map (·.1)).get? k
    return ⟨rm, BestFields.flds chosen,
      npSum (field_order.map fun k => vals.getD k F.nan)⟩

/-- `best_blob = np.min(np.where(potential_rewards ==
np.max(potential_rewards))[0])` (line 542): the least index attaining the
maximum aggregate (`np.max` raises on an empty list; `np.min` raises when no
entry compares equal to the maximum, as happens when the maximum is NaN). -/
def blockBestBlob (stats : List MaskStat) : Option ℕ := do
  let mx ← npMax (stats.map (·.reward))
  (whereTrue ((stats.map (·.reward)).map fun r => F.beq r mx)).head?

/-- `Block_survey.calc_reward_function` without the attribute writes: the
returned reward value and (in the feasible branch) the new `best_fields`.
When the `isinf` override fires the surface is replaced by the scalar
`np.inf` and the subsequent mask loop raises
(`reward_map[good] = self.reward[good]` subscripts a Python float; with an
empty mask list `np.max([])` raises instead), so the collapse never returns. -/
def blockCalcCore (s : BlockSurvey) : Option (RewardVal × Option BestFields) :=
  if blockFeasible s then do
    let cr ← compositeStep true s.npix s.basis_functions s.basis_weights
      s.smoothing_kernel
    if cr.collapsed then none
    else do
      let stats ← s.alt_az_masks.mapM (maskEval s cr)
      let best_blob ← blockBestBlob stats
      let best ← stats.get? best_blob
      return (RewardVal.surface best.reward_map cr.cmask, some best.pointings)
  else
    return (RewardVal.scalar F.ninf, none)

/-- `Block_survey.calc_reward_function`: run the core and write the
attributes (`reward_checked`, `reward`, and — on the feasible path —
`best_fields`). -/
def blockCalc (s : BlockSurvey) : Option (BlockSurvey × RewardVal) :=
  (blockCalcCore s).map fun r =>
    ({ s with
        reward_checked := true
        reward := some r.1
        best_fields := match r.2 with
          | some b => some b
          | none => s.best_fields }, r.1)

/-- The in-place note tagging
`for i in range(lo, hi, 1): result[i]['note'] = ...` (raises `IndexError`
when the doubled list is shorter than `2*nvisit_block`). -/
def setNotes (l : List Obs) (lo hi : ℕ) (note : String) : Option (List Obs) :=
  (List.range (hi - lo)).foldlM
    (fun acc k =>
      let i := lo + k
      if h : i < acc.length then
        some (acc.set i { acc.get ⟨i, h⟩ with note := note })
      else none) l

/-- Lines 568-585 of `Block_survey.__call__` (identical code appears at
lines 1095-1114 of `Vary_expt_survey.__call__`): the gnomonic projection
centre (`mid_alt = (max-min)/2`; `mid_az` from the wrap-around-aware mean
direction, `np.pi` when the direction is degenerate). -/
def projCenterG (fc fs : F → F) (fa : F → F → F) (fq : F → F)
    (alts azs : List F) : Option (F × F) := do
  let mxa ← npMax alts
  let mna ← npMin alts
  let mid_alt := F.mul (F.sub mxa mna) (F.fin (1 / 2))
  let xs := azs.map fc
  let ys := azs.map fs
  let meanx := meanF xs
  let meany := meanF ys
  let angle := fa meany meanx
  let radius := fq (F.add (F.mul meanx meanx) (F.mul meany meany))
  let mid_az := if F.lt radius pointOneF then piF else F.fmod angle twoPiF
  return (mid_az, mid_alt)

/-- The projection centre with `Block_survey`'s trigonometry collaborators. -/
def projCenter (s : BlockSurvey) (alts azs : List F) : Option (F × F) :=
  projCenterG s.fcos s.fsin s.fatan2 s.fsqrt alts azs

/-- The tag of a field:
`np.unique(self.tag_map[np.where(self.hp2fields == field)])[0]` when
`tag_fields` is set (raises on an empty selection), else `1`. -/
def blockTagOf (s : BlockSurvey) (field : ℕ) : Option ℕ :=
  if s.tag_fields then
    ((whereTrue (s.hp2fields.map fun f => f == field)).mapM
      fun c => s.tag_map.get? c).bind fun tvals => (npUnique tvals).head?
  else some 1

/-- The observation record built for one emitted field (the `survey_id`
lookup repeats the same deterministic `np.unique(...)[0]` expression as the
tag). -/
def blockObsFor (s : BlockSurvey) (field : ℕ) : Option Obs := do
  let ra ← s.fields_RA.get? field
  let de ← s.fields_dec.get? field
  let sid ← blockTagOf s field
  return { empty_observation with
    RA := ra, dec := de, rotSkyPos := F.fin 0, filt := s.filtername,
    nexp := s.nexp, exptime := s.exptime, field_id := -1,
    survey_id := (sid : ℤ), note := s.survey_note, block_id := s.counter }

/-- One iteration of the emission loop `for indx in better_order:` — build a
record for the routed field, unless its tag is `0`. -/
def blockEmitStep (s : BlockSurvey) (flds : List ℕ) (acc : List Obs)
    (indx : ℕ) : Option (List Obs) := do
  let field ← flds.get? indx
  let tag ← blockTagOf s field
  if tag = 0 then return acc
  else do
    let o ← blockObsFor s field
    return acc ++ [o]

/-- The emission loop `for indx in better_order:` — one record per routed
field, skipping fields whose tag is `0`. -/
def blockEmit (s : BlockSurvey) (flds : List ℕ) (order : List ℕ) :
    Option (List Obs) :=
  order.foldlM (blockEmitStep s flds) []

/-- The tail of `__call__` (lines 619-648): the optional second-filter pass
(pair doubling, order chosen by the currently loaded filter, then the
`', a'`/`', b'` note tagging), and the `counter` increment. -/
def blockFinish (s : BlockSurvey) (observations : List Obs) :
    Option (BlockSurvey × List Obs) := do
  let result ← match s.filter2 with
    | none => some observations
    | some f2 => do
        let paired := observations.map fun o => { o with filt := f2 }
        let res0 := if s.current_filter == f2 then paired ++ observations
          else observations ++ paired
        let r1 ← setNotes res0 0 s.nvisit_block (s.survey_note ++ ", a")
        setNotes r1 s.nvisit_block (s.nvisit_block * 2)
          (s.survey_note ++ ", b")
  return ({ s with counter := s.counter + 1 }, result)

/-- The tail of `__call__` on a proper field block: project the pointings,
route them (`tsp_convex`), emit and finish. -/
def blockCallTail (s1 : BlockSurvey) (flds : List ℕ) :
    Option (BlockSurvey × List Obs) := do
  let ras ← fancyGet s1.fields_RA flds
  let decs ← fancyGet s1.fields_dec flds
  let pts := (ras.zip decs).map fun pr => s1.radec2altaz pr.1 pr.2
  let alts := pts.map (·.1)
  let azs := pts.map (·.2)
  let c ← projCenter s1 alts azs
  let towns := (azs.zip alts).map fun pr => s1.gnomonic pr.1 pr.2 c.1 c.2
  let border := s1.tsp towns
  let observations ← blockEmit s1 flds border
  blockFinish s1 observations

/-- `Block_survey.__call__`: recompute the reward if unchecked, read
`self.best_fields` (`AttributeError` if it was never assigned, e.g. after an
infeasible `calc_reward_function` on a fresh survey), project the pointings,
route them (`tsp_convex`, opaque), emit the block and optionally pair it.
When `best_fields` is the int-`0` placeholder the pointing coordinates are
scalars and the loop body `self.best_fields[indx]` subscripts an int —
`TypeError` unless the route order is empty. -/
def blockCall (s : BlockSurvey) : Option (BlockSurvey × List Obs) := do
  let s1 ← if s.reward_checked then some s else (blockCalc s).map (·.1)
  let bfv ← s1.best_fields
  match bfv with
  | BestFields.placeholder => do
      let ra ← s1.fields_RA.get? 0
      let de ← s1.fields_dec.get? 0
      let p := s1.radec2altaz ra de
      let c ← projCenter s1 [p.1] [p.2]
      let towns := [s1.gnomonic p.2 p.1 c.1 c.2]
      let border := s1.tsp towns
      if border.isEmpty then blockFinish s1 []
      else none
  | BestFields.flds flds => blockCallTail s1 flds

/-! ### `Vary_expt_survey`
(src/python/lsst/sims/featureScheduler/surveys/to_port.py 848-1173) -/

/-- Clear the listed positions of a boolean array (masked-array element
assignment also unmasks); out-of-range raises. -/
def boolSetFalse (bs : List Bool) (idx : List ℕ) : Option (List Bool) :=
  if idx.all (· < bs.length) then
    some (idx.foldl (fun acc i => acc.set i false) bs)
  else none

/-- `np.cumsum` helper. -/
def cumSumAux (c : F) : List F → List F
  | [] => []
  | x :: r =>
      let c2 := F.add c x
      c2 :: cumSumAux c2 r

/-- `np.cumsum`. -/
def cumSum (l : List F) : List F := cumSumAux (F.fin 0) l

/-- The state of a `Vary_expt_survey`.  `m5diff1`/`m5diff2` are the full-map
outputs of the two `M5_diff_basis_function` extra units for this tick (the
`basis_functions` module is not among the sources; the spec treats scoring
units as pure per-tick maps).  `haversine` and `scale_exptime` are repo
utilities absent from the sources, consumed as black boxes; the remaining
function fields are the external collaborators as in `BlockSurvey`. -/
structure VarySurvey where
  npix : ℕ
  basis_functions : List (List ℕ → BasisOut)
  basis_weights : List F
  smoothing_kernel : Option (List F → List F)
  hp2fields : List ℕ
  m5diff1 : List F
  m5diff2 : List F
  mounted_filters : List String
  filter_set : List String
  filter2_set : List String
  filter2 : Option String
  sunAlt : F
  sun_alt_limit : F
  mjd : F
  next_twilight_start : F
  time_needed : F
  altaz_alt : List F
  altaz_az : List F
  alt_max : F
  search_radius : F
  az_range : F
  min_exptime : F
  max_exptime : F
  slew_approx : F
  read_approx : F
  nexp : F
  ideal_pair_time : F
  ra : List F
  dec : List F
  fields_RA : List F
  fields_dec : List F
  lat : F
  lon : F
  lmst : F
  current_filter : String
  filtername : String
  survey_note : String
  tag_fields : Bool
  tag_map : List ℕ
  haversine : F → F → F → F → F
  scale_exptime : List F → F → F → List F
  radec2altaz : F → F → F × F
  gnomonic : F → F → F → F → F × F
  fcos : F → F
  fsin : F → F
  fatan2 : F → F → F
  fsqrt : F → F
  tsp : List (F × F) → List ℕ
  reward_checked : Bool
  reward : Option RewardVal
  best_fields : Option (List ℕ)
  exptimes_f1 : Option (List F)
  exptimes_f2 : Option (List F)
  block_time : Option (Sum F (List F))
  counter : ℤ

/-- `Vary_expt_survey._check_feasability` (lines 984-1001): same gate as
`Block_survey`. -/
def varyFeasible (s : VarySurvey) : Bool :=
  let fm0 := subsetOf s.filter_set s.mounted_filters
  let fm := match s.filter2 with
    | some _ => fm0 && subsetOf s.filter2_set s.mounted_filters
    | none => fm0
  if !fm then false
  else if F.gt s.sunAlt s.sun_alt_limit then false
  else if F.lt (F.sub s.next_twilight_start s.mjd) s.time_needed then false
  else true

/-- `Vary_expt_survey._set_block_time` (lines 964-982): the ideal pair time
when at least three ideal blocks fit before twilight, else the
`possible_times[np.where(diff == np.min(diff))]` *array*. -/
def varySetBlockTime (s : VarySurvey) : Sum F (List F) :=
  let available := F.mul (F.sub s.next_twilight_start s.mjd) (F.fin 1440)
  let n_ideal := F.div available s.ideal_pair_time
  if F.ge n_ideal (F.fin 3) then Sum.inl s.ideal_pair_time
  else
    let possible := [F.div available (F.fin 1), F.div available (F.fin 2),
      F.div available (F.fin 3)]
    let diffs := possible.map fun p => F.fabs (F.sub s.ideal_pair_time p)
    match npMin diffs with
    | some mn =>
        Sum.inr (((possible.zip diffs).filter fun p => F.beq p.2 mn).map (·.1))
    | none => Sum.inr []

/-- `elapsed_sec/60. <= self.block_time` with numpy broadcasting:
a scalar block time compares elementwise; an array block time broadcasts only
when it has length one or the same length. -/
def blockTimeLE (elapsed : List F) : Sum F (List F) → Option (List Bool)
  | Sum.inl b => some (elapsed.map fun e => F.le (F.div e (F.fin 60)) b)
  | Sum.inr bl =>
      if bl.length = 1 then
        some (elapsed.map fun e => F.le (F.div e (F.fin 60)) (bl.getD 0 F.nan))
      else if bl.length = elapsed.length then
        some (List.zipWith (fun e b => F.le (F.div e (F.fin 60)) b) elapsed bl)
      else none

/-- The outputs of `Vary_expt_survey.calc_reward_function` (the attributes it
assigns). -/
structure VaryOut where
  reward : RewardVal
  best_fields : Option (List ℕ)
  e1 : Option (List F)
  e2 : Option (List F)
  bt : Sum F (List F)

/-- The altitude cut (lines 1032-1034): masked-array element assignment
writes `UNSEEN` and unmasks. -/
def varyCutAlt (s : VarySurvey) (d : List F) (m : List Bool) :
    Option (List F × List Bool) := do
  let too_high := whereTrue (s.altaz_alt.map fun a => F.gt a s.alt_max)
  let d1 ← fillAt d too_high UNSEEN
  let m1 ← boolSetFalse m too_high
  return (d1, m1)

/-- `peak_reward = np.min(np.where(self.reward == np.max(self.reward))[0])`
(line 1038): `np.max` of a masked array reduces over the unmasked entries
(raising when none remain), and the masked comparison skips masked cells. -/
def varyPeak (s : VarySurvey) (d : List F) (m : List Bool) : Option ℕ := do
  let unmaskedVals := ((List.range s.npix).filter
    fun i => !(m.getD i false)).map fun i => d.getD i F.nan
  let mx ← npMax unmaskedVals
  ((List.range s.npix).filter fun i =>
    !(m.getD i false) && F.beq (d.getD i F.nan) mx).head?

/-- The radius cut around the peak (lines 1040-1042). -/
def varyCutRadius (s : VarySurvey) (d : List F) (m : List Bool) (peak : ℕ) :
    Option (List F × List Bool) := do
  let ra0 ← s.ra.get? peak
  let dec0 ← s.dec.get? peak
  let dists := (s.ra.zip s.dec).map fun p => s.haversine ra0 dec0 p.1 p.2
  let out_hp := whereTrue (dists.map fun di => F.gt di s.search_radius)
  let d2 ← fillAt d out_hp UNSEEN
  let m2 ← boolSetFalse m out_hp
  return (d2, m2)

/-- The azimuth cut around the peak (lines 1045-1049). -/
def varyCutAz (s : VarySurvey) (d : List F) (m : List Bool) (peak : ℕ) :
    Option (List F × List Bool) := do
  let az0 ← s.altaz_az.get? peak
  let az_centered := s.altaz_az.map fun a =>
    let c := F.sub a az0
    if F.lt c (F.fin 0) then F.add c twoPiF else c
  let halfRange := F.div s.az_range (F.fin 2)
  let az_out := whereTrue (az_centered.map fun a =>
    F.gt a halfRange && F.lt a (F.sub twoPiF halfRange))
  let d3 ← fillAt d az_out UNSEEN
  let m3 ← boolSetFalse m az_out
  return (d3, m3)

/-- `self.reward.filled()` for the running surface. -/
def varyFilled (s : VarySurvey) (d : List F) (m : List Bool) : List F :=
  (List.range s.npix).map fun i =>
    if m.getD i false then UNSEEN else d.getD i F.nan

/-- `potential_hp = np.where(self.reward.filled() != hp.UNSEEN)` (line 1050). -/
def varyPotential (s : VarySurvey) (d : List F) (m : List Bool) : List ℕ :=
  (List.range s.npix).filter fun i =>
    F.bne ((varyFilled s d m).getD i F.nan) UNSEEN

/-- Lines 1052-1063: bin the surviving cells by field (max reward, mean m5
difference), sort fields by reward (highest first) and scale the first-filter
exposure times. -/
def varyFieldCalc (s : VarySurvey) (d : List F) (m : List Bool) :
    Option (List ℕ × List F) := do
  let potential := varyPotential s d m
  let fields ← potential.mapM fun i => s.hp2fields.get? i
  let vals ← potential.mapM fun i => (varyFilled s d m).get? i
  let br := int_binned_stat fields vals max_reject
  let m5vals1 ← potential.mapM fun i => s.m5diff1.get? i
  let bm5 := int_binned_stat fields m5vals1 meanF
  let order := argsortAsc br.2
  let ufSorted ← (order.mapM fun k => br.1.get? k).map List.reverse
  let m5Sorted ← (order.mapM fun k => bm5.2.get? k).map List.reverse
  return (ufSorted, s.scale_exptime m5Sorted s.min_exptime s.max_exptime)

/-- Lines 1064-1066: per-visit overhead, elapsed time, and the index of the
last visit fitting into the block time (`np.max` of an empty selection
raises). -/
def varyMaxIndx (s : VarySurvey) (exptime_f1 : List F) (bt : Sum F (List F)) :
    Option ℕ := do
  let overhead := F.add s.slew_approx
    (F.mul s.read_approx (F.sub s.nexp (F.fin 1)))
  let elapsed := cumSum (exptime_f1.map fun e => F.add e overhead)
  let leMask ← blockTimeLE elapsed bt
  (whereTrue leMask).getLast?

/-- Lines 1069-1079: the second-filter exposure times.  Line 1077 computes
`m5_filter2_by_field[order][::-1]` and discards the result, so the times are
scaled from the *unsorted* per-field means — embedded as written. -/
def varyExptimes2 (s : VarySurvey) (d : List F) (m : List Bool) (max_indx : ℕ) :
    Option (Option (List F)) :=
  match s.filter2 with
  | none => some none
  | some _ => do
      let potential := varyPotential s d m
      let fields ← potential.mapM fun i => s.hp2fields.get? i
      let m5vals2 ← potential.mapM fun i => s.m5diff2.get? i
      let bm52 := int_binned_stat fields m5vals2 meanF
      let vals0 ← potential.mapM fun i => (varyFilled s d m).get? i
      let order := argsortAsc (int_binned_stat fields vals0 max_reject).2
      let _ ← (order.mapM fun k => bm52.2.get? k).map List.reverse
      let exptime_f2 := s.scale_exptime bm52.2 s.min_exptime s.max_exptime
      return some (exptime_f2.take (max_indx + 1))

/-- The feasible branch of `Vary_expt_survey.calc_reward_function` after the
composite loop. -/
def varyFeasibleTail (s : VarySurvey) (cr : CompositeResult)
    (bt : Sum F (List F)) : Option VaryOut := do
  let c1 ← varyCutAlt s cr.data cr.cmask
  let peak ← varyPeak s c1.1 c1.2
  let c2 ← varyCutRadius s c1.1 c1.2 peak
  let c3 ← varyCutAz s c2.1 c2.2 peak
  let fc ← varyFieldCalc s c3.1 c3.2
  let max_indx ← varyMaxIndx s fc.2 bt
  let e2 ← varyExptimes2 s c3.1 c3.2 max_indx
  return ⟨RewardVal.surface c3.1 c3.2, some (fc.1.take (max_indx + 1)),
    some (fc.2.take (max_indx + 1)), e2, bt⟩

/-- `Vary_expt_survey.calc_reward_function` (lines 1003-1085) without the
attribute writes.  `_set_block_time` runs before the gate; the feasible
branch reuses the composite loop (this survey has no `isinf` override). -/
def varyCalcCore (s : VarySurvey) : Option VaryOut :=
  let bt := varySetBlockTime s
  if varyFeasible s then
    (compositeStep false s.npix s.basis_functions s.basis_weights
      s.smoothing_kernel).bind fun cr => varyFeasibleTail s cr bt
  else
    some ⟨RewardVal.scalar F.ninf, none, none, none, bt⟩

/-- `Vary_expt_survey.calc_reward_function`: run the core and write the
attributes (`reward_checked` is set at the end, in both branches; attributes
not assigned on the infeasible path keep their previous values). -/
def varyCalc (s : VarySurvey) : Option (VarySurvey × RewardVal) :=
  (varyCalcCore s).map fun r =>
    ({ s with
        reward_checked := true
        reward := some r.reward
        block_time := some r.bt
        best_fields := match r.best_fields with
          | some b => some b
          | none => s.best_fields
        exptimes_f1 := match r.e1 with
          | some e => some e
          | none => s.exptimes_f1
        exptimes_f2 := match r.e2 with
          | some e => some e
          | none => s.exptimes_f2 }, r.reward)

/-- The field tag for `Vary_expt_survey.__call__` (same expression as in
`Block_survey.__call__`). -/
def varyTagOf (s : VarySurvey) (field : ℕ) : Option ℕ :=
  if s.tag_fields then
    ((whereTrue (s.hp2fields.map fun f => f == field)).mapM
      fun c => s.tag_map.get? c).bind fun tvals => (npUnique tvals).head?
  else some 1

/-- The emission loop of `Vary_expt_survey.__call__` (lines 1126-1150): one
record per routed field, exposure time `self.exptimes_f1[indx]`, the note
always re-set to `'%s, a'`. -/
def varyEmit (s : VarySurvey) (flds : List ℕ) (e1 : List F)
    (order : List ℕ) : Option (List Obs) :=
  order.foldlM
    (fun acc indx => do
      let field ← flds.get? indx
      let tag ← varyTagOf s field
      if tag = 0 then return acc
      else do
        let ra ← s.fields_RA.get? field
        let de ← s.fields_dec.get? field
        let ex ← e1.get? indx
        let sid ← varyTagOf s field
        return acc ++ [{ empty_observation with
          RA := ra, dec := de, rotSkyPos := F.fin 0, filt := s.filtername,
          nexp := s.nexp, exptime := ex, field_id := -1,
          survey_id := (sid : ℤ), note := s.survey_note ++ ", a",
          block_id := s.counter }]) []

/-- The pairing tail of `Vary_expt_survey.__call__` (lines 1152-1173): the
second-filter copies take `self.exptimes_f2[better_order[i]]` where `i`
enumerates the emitted list, and the pair order follows the loaded filter. -/
def varyFinish (s : VarySurvey) (observations : List Obs) (border : List ℕ) :
    Option (VarySurvey × List Obs) := do
  let result ← match s.filter2 with
    | none => some observations
    | some f2 => do
        let e2 ← s.exptimes_f2
        let paired ← (observations.enum).mapM fun p => do
          let bo ← border.get? p.1
          let ex ← e2.get? bo
          return { p.2 with
            filt := f2
            exptime := ex
            note := s.survey_note ++ ", b" }
        pure (if s.current_filter == f2 then paired ++ observations
          else observations ++ paired)
  return ({ s with counter := s.counter + 1 }, result)

/-- `Vary_expt_survey.__call__` (lines 1087-1173): recompute the reward if
unchecked, read `self.best_fields` (`AttributeError` if never assigned,
e.g. after an infeasible `calc_reward_function` on a fresh survey), project
and route the pointings, emit and optionally pair. -/
def varyCall (s : VarySurvey) : Option (VarySurvey × List Obs) := do
  let s1 ← if s.reward_checked then some s else (varyCalc s).map (·.1)
  let flds ← s1.best_fields
  let ras ← fancyGet s1.fields_RA flds
  let decs ← fancyGet s1.fields_dec flds
  let pts := (ras.zip decs).map fun pr => s1.radec2altaz pr.1 pr.2
  let c ← projCenterG s1.fcos s1.fsin s1.fatan2 s1.fsqrt (pts.map (·.1))
    (pts.map (·.2))
  let towns := ((pts.map (·.2)).zip (pts.map (·.1))).map
    fun pr => s1.gnomonic pr.1 pr.2 c.1 c.2
  let border := s1.tsp towns
  let e1 ← s1.exptimes_f1
  let observations ← varyEmit s1 flds e1 border
  varyFinish s1 observations border

/-! ### C3: the feasibility gate -/

/-- C3 (amended): whenever the feasibility gate is false, both surveys'
`calc_reward_function` returns the scalar `-inf`; and the gate is recomputed
from the current features on every call — stale `reward`, `reward_checked` or
`best_fields` attributes left by earlier ticks cannot change the result.
(The produce side of the original claim is refuted separately: `__call__`
does not return an empty list on an infeasible tick.) -/
theorem C3_infeasible_reward_neginf (sb : BlockSurvey) (sv : VarySurvey)
    (hb : blockFeasible sb = false) (hv : varyFeasible sv = false) :
    blockCalc sb
      = some ({ sb with
          reward_checked := true
          reward := some (RewardVal.scalar F.ninf) }, RewardVal.scalar F.ninf) ∧
    varyCalc sv
      = some ({ sv with
          reward_checked := true
          reward := some (RewardVal.scalar F.ninf)
          block_time := some (varySetBlockTime sv) }, RewardVal.scalar F.ninf) ∧
    (∀ rc rv bf, blockCalc
        { sb with reward_checked := rc, reward := rv, best_fields := bf }
      = some ({ sb with
          reward_checked := true
          reward := some (RewardVal.scalar F.ninf)
          best_fields := bf }, RewardVal.scalar F.ninf)) := by
  refine ⟨?_, ?_, ?_⟩
  · simp [blockCalc, blockCalcCore, hb]
  · simp [varyCalc, varyCalcCore, hv]
  · intro rc rv bf
    have hb2 : blockFeasible
        { sb with reward_checked := rc, reward := rv, best_fields := bf }
        = false := hb
    simp [blockCalc, blockCalcCore, hb2]

/-- An infeasible `Block_survey` on a fresh tick: the required filter is not
mounted, the reward was never computed and `best_fields` was never assigned. -/
def exBlockInf : BlockSurvey where
  npix := 0
  basis_functions := []
  basis_weights := []
  smoothing_kernel := none
  alt_az_masks := []
  hp2fields := []
  nvisit_block := 0
  interp := fun _ _ _ => []
  altaz_alt := []
  altaz_az := []
  mounted_filters := []
  filter_set := ["r"]
  filter2_set := ["g"]
  filter2 := none
  sunAlt := F.fin 0
  sun_alt_limit := F.fin 0
  mjd := F.fin 0
  next_twilight_start := F.fin 0
  time_needed := F.fin 0
  fields_RA := []
  fields_dec := []
  lat := F.fin 0
  lon := F.fin 0
  lmst := F.fin 0
  current_filter := "r"
  filtername := "r"
  nexp := F.fin 2
  exptime := F.fin 30
  survey_note := "block"
  tag_fields := false
  tag_map := []
  radec2altaz := fun _ _ => (F.fin 0, F.fin 0)
  gnomonic := fun _ _ _ _ => (F.fin 0, F.fin 0)
  fcos := fun _ => F.fin 0
  fsin := fun _ => F.fin 0
  fatan2 := fun _ _ => F.fin 0
  fsqrt := fun _ => F.fin 0
  tsp := fun _ => []
  reward_checked := false
  reward := none
  best_fields := none
  counter := 1

/-- An infeasible `Vary_expt_survey` on a fresh tick. -/
def exVaryInf : VarySurvey where
  npix := 0
  basis_functions := []
  basis_weights := []
  smoothing_kernel := none
  hp2fields := []
  m5diff1 := []
  m5diff2 := []
  mounted_filters := []
  filter_set := ["r"]
  filter2_set := ["g"]
  filter2 := none
  sunAlt := F.fin 0
  sun_alt_limit := F.fin 0
  mjd := F.fin 0
  next_twilight_start := F.fin 1
  time_needed := F.fin 0
  altaz_alt := []
  altaz_az := []
  alt_max := F.fin 2
  search_radius := F.fin 1
  az_range := F.fin 2
  min_exptime := F.fin 15
  max_exptime := F.fin 60
  slew_approx := F.fin 7
  read_approx := F.fin 2
  nexp := F.fin 2
  ideal_pair_time := F.fin 22
  ra := []
  dec := []
  fields_RA := []
  fields_dec := []
  lat := F.fin 0
  lon := F.fin 0
  lmst := F.fin 0
  current_filter := "r"
  filtername := "r"
  survey_note := "blob"
  tag_fields := false
  tag_map := []
  haversine := fun _ _ _ _ => F.fin 0
  scale_exptime := fun l _ _ => l
  radec2altaz := fun _ _ => (F.fin 0, F.fin 0)
  gnomonic := fun _ _ _ _ => (F.fin 0, F.fin 0)
  fcos := fun _ => F.fin 0
  fsin := fun _ => F.fin 0
  fatan2 := fun _ _ => F.fin 0
  fsqrt := fun _ => F.fin 0
  tsp := fun _ => []
  reward_checked := false
  reward := none
  best_fields := none
  exptimes_f1 := none
  exptimes_f2 := none
  block_time := none
  counter := 1

/-- C3 counterexample: on a fresh infeasible tick both surveys report `-inf`,
but `__call__` does *not* return an empty list — it raises
(`AttributeError`, since `best_fields` was never assigned; with stale
`best_fields` from an earlier tick it would emit the stale block instead). -/
theorem C3_counterexample_produce_not_empty :
    blockFeasible exBlockInf = false ∧
      (blockCalc exBlockInf).map (fun p => p.2)
        = some (RewardVal.scalar F.ninf) ∧
      blockCall exBlockInf = none ∧
      varyFeasible exVaryInf = false ∧
      (varyCalc exVaryInf).map (fun p => p.2)
        = some (RewardVal.scalar F.ninf) ∧
      varyCall exVaryInf = none := by
  refine ⟨by decide, rfl, rfl, by decide, rfl, rfl⟩

/-- C3 witness: the amended theorem applied to the two concrete infeasible
surveys. -/
theorem C3_infeasible_witness :
    (blockCalc exBlockInf).map (fun p => p.2)
      = some (RewardVal.scalar F.ninf) ∧
    (varyCalc exVaryInf).map (fun p => p.2)
      = some (RewardVal.scalar F.ninf) := by
  have h := C3_infeasible_reward_neginf exBlockInf exVaryInf (by decide)
    (by decide)
  refine ⟨?_, ?_⟩
  · rw [h.1]
    rfl
  · rw [h.2.1]
    rfl

/-! ### C9: read-only reward evaluation -/

lemma blockCalc_state (s s1 : BlockSurvey) (v : RewardVal)
    (h : blockCalc s = some (s1, v)) :
    blockCalcCore s1 = blockCalcCore s ∧ (blockCalcCore s).map Prod.fst
      = some v := by
  unfold blockCalc at h
  obtain ⟨r, hcore, hmap⟩ := Option.map_eq_some'.mp h
  obtain ⟨hA, hV⟩ := (Prod.mk.injEq _ _ _ _).mp hmap
  constructor
  · rw [← hA]
    rfl
  · rw [hcore, ← hV]
    rfl

lemma varyCalc_state (s s1 : VarySurvey) (v : RewardVal)
    (h : varyCalc s = some (s1, v)) :
    varyCalcCore s1 = varyCalcCore s ∧ (varyCalcCore s).map VaryOut.reward
      = some v := by
  unfold varyCalc at h
  obtain ⟨r, hcore, hmap⟩ := Option.map_eq_some'.mp h
  obtain ⟨hA, hV⟩ := (Prod.mk.injEq _ _ _ _).mp hmap
  constructor
  · rw [← hA]
    rfl
  · rw [hcore, ← hV]
    rfl

/-- C9: `calc_reward_function` is read-only with respect to everything the
reward depends on — it writes only `reward`, `reward_checked`,
`best_fields` (and for `Vary_expt_survey` the block time and exposure-time
attributes), none of which it reads; so calling it twice with no intervening
snapshot update or observation callback returns the identical value. -/
theorem C9_compute_reward_idempotent
    (sb sb1 : BlockSurvey) (v1 : RewardVal)
    (sv sv1 : VarySurvey) (w1 : RewardVal)
    (hb : blockCalc sb = some (sb1, v1))
    (hv : varyCalc sv = some (sv1, w1)) :
    (blockCalc sb1).map (fun p => p.2) = some v1 ∧
    (varyCalc sv1).map (fun p => p.2) = some w1 := by
  constructor
  · obtain ⟨hstable, hval⟩ := blockCalc_state sb sb1 v1 hb
    unfold blockCalc
    rw [hstable, Option.map_map]
    exact hval
  · obtain ⟨hstable, hval⟩ := varyCalc_state sv sv1 w1 hv
    unfold varyCalc
    rw [hstable, Option.map_map]
    exact hval

/-- C9 witness: both surveys evaluated twice on a concrete tick (the second
evaluation starts from the post-evaluation state and reports the same
value). -/
theorem C9_compute_reward_witness :
    (blockCalc { exBlockInf with
        reward_checked := true
        reward := some (RewardVal.scalar F.ninf) }).map (fun p => p.2)
      = some (RewardVal.scalar F.ninf) ∧
    (varyCalc { exVaryInf with
        reward_checked := true
        reward := some (RewardVal.scalar F.ninf)
        block_time := some (varySetBlockTime exVaryInf) }).map (fun p => p.2)
      = some (RewardVal.scalar F.ninf) :=
  C9_compute_reward_idempotent exBlockInf _ (RewardVal.scalar F.ninf)
    exVaryInf _ (RewardVal.scalar F.ninf) (by rfl) (by rfl)

/-! ### C4: the infinity override -/

lemma compositeStep_fields {wc : Bool} {npix : ℕ}
    {bfs : List (List ℕ → BasisOut)} {ws : List F}
    {cr : CompositeResult}
    (hcr : compositeStep wc npix bfs ws none = some cr) :
    ∃ acc d1, ((bfs.zip ws).foldlM bfStep
        ⟨none, none, List.replicate npix false, List.range npix, []⟩
          = some acc) ∧
      acc.rdata.isSome ∧ acc.rmask.isSome ∧
      setWhere (acc.rdata.getD []) acc.accMask UNSEEN = some d1 ∧
      cr = ⟨d1, acc.accMask,
        wc && (List.range npix).any fun i =>
          !(acc.accMask.getD i false) && F.isInf (d1.getD i F.nan),
        acc.outs⟩ := by
  unfold compositeStep at hcr
  obtain ⟨acc, hacc, h2⟩ := Option.bind_eq_some.mp hcr
  obtain ⟨d, hd, h3⟩ := Option.bind_eq_some.mp h2
  obtain ⟨d1, hd1, h4⟩ := Option.bind_eq_some.mp h3
  obtain ⟨m, hm, h5⟩ := Option.bind_eq_some.mp h4
  refine ⟨acc, d1, hacc, by simp [hd], by simp [hm], by simpa [hd] using hd1,
    ?_⟩
  have := Option.some.inj h5
  rw [← this]

/-- C4 (amended): the whole-surface collapse fires exactly when some
*unmasked* cell of the composite is infinite — positive **or** negative
(`np.isinf`); and whenever it fires on a feasible tick,
`calc_reward_function` raises rather than returning the collapsed scalar
(`reward_map[good] = self.reward[good]` subscripts the float `np.inf`; with
an empty mask list `np.max([])` raises instead). -/
theorem C4_collapse_iff_any_infinity (s : BlockSurvey) (cr : CompositeResult)
    (hsm : s.smoothing_kernel = none)
    (hcr : compositeStep true s.npix s.basis_functions s.basis_weights
      s.smoothing_kernel = some cr) :
    (cr.collapsed = true ↔ ∃ i < s.npix, cr.cmask.getD i false = false ∧
      F.isInf (cr.data.getD i F.nan) = true) ∧
    (blockFeasible s = true → cr.collapsed = true → blockCalcCore s = none) := by
  rw [hsm] at hcr
  obtain ⟨acc, d1, hacc, hrd, hrm, hd1, hcrEq⟩ := compositeStep_fields hcr
  constructor
  · rw [hcrEq]
    simp [List.any_eq_true, List.mem_range, Bool.and_eq_true,
      Bool.not_eq_true']
  · intro hfeas hcol
    unfold blockCalcCore
    rw [hfeas, if_pos rfl, hsm, hcr]
    simp [hcol]

/-- A scoring unit returning `-inf` at the only cell (nothing masked). -/
def exBfNinf : BasisOut := ⟨[F.ninf], some [false]⟩

/-- A feasible one-cell `Block_survey` whose single unit contributes `-inf`:
the composite surface contains a negative infinity and no positive one. -/
def exBlockNinf : BlockSurvey :=
  { exBlockInf with
    mounted_filters := ["r"]
    npix := 1
    basis_functions := [fun _ => exBfNinf]
    basis_weights := [F.fin 1]
    alt_az_masks := [[F.fin 1]]
    hp2fields := [0]
    altaz_alt := [F.fin 0]
    altaz_az := [F.fin 0] }

/-- C4 counterexample: a surface whose only infinite cell is *negative*
infinity still triggers the collapse (`np.isinf` accepts both signs), and the
feasible-tick reward computation then raises — the claim says such a surface
is not collapsed. -/
theorem C4_counterexample_ninf_collapses :
    blockFeasible exBlockNinf = true ∧
      (compositeStep true exBlockNinf.npix exBlockNinf.basis_functions
          exBlockNinf.basis_weights exBlockNinf.smoothing_kernel).map
        (fun cr => (cr.data, cr.cmask, cr.collapsed))
        = some ([F.ninf], [false], true) ∧
      List.contains [F.ninf] F.pinf = false ∧
      blockCalcCore exBlockNinf = none := by
  refine ⟨by decide, by decide, by decide, by decide⟩

/-- C4 witness: the amended collapse characterisation applied to the
concrete one-cell survey. -/
theorem C4_collapse_witness :
    blockFeasible exBlockNinf = true ∧ blockCalcCore exBlockNinf = none := by
  have h := C4_collapse_iff_any_infinity exBlockNinf
    ⟨[F.ninf], [false], true, [exBfNinf]⟩ rfl (by decide)
  exact ⟨by decide, h.2 (by decide) (by decide)⟩

/-! ### C2: sentinel/mask propagation -/

/-- A scoring unit flags cell `c`: either the cell lands in the
`basis_value == hp.UNSEEN` selection or the unit's own mask covers it. -/
def unitMasksCell (o : BasisOut) (c : ℕ) : Bool :=
  decide (c ∈ unitWhereUnseen o) ||
    (match o.mask with
      | some m => m.getD c false
      | none => false)

lemma getD_true_lt {bs : List Bool} {c : ℕ} (h : bs.getD c false = true) :
    c < bs.length := by
  by_contra hge
  rw [List.getD_eq_default _ _ (Nat.le_of_not_lt hge)] at h
  cases h

lemma whereTrue_mem {bs : List Bool} {c : ℕ} :
    c ∈ whereTrue bs ↔ bs.getD c false = true := by
  unfold whereTrue
  simp only [List.mem_filter, List.mem_range]
  constructor
  · exact fun h => h.2
  · exact fun h => ⟨getD_true_lt h, h⟩

lemma getD_set_true {bs : List Bool} {i c : ℕ} (h : bs.getD c false = true) :
    (bs.set i true).getD c false = true := by
  by_cases hic : i = c
  · subst hic
    have hlt : i < bs.length := getD_true_lt h
    rw [List.getD_eq_getElem?_getD, List.getElem?_set_self',
      List.getElem?_eq_getElem hlt]
    rfl
  · rw [List.getD_eq_getElem?_getD, List.getElem?_set_ne hic,
      ← List.getD_eq_getElem?_getD]
    exact h

lemma getD_set_true_self {bs : List Bool} {c : ℕ} (hlt : c < bs.length) :
    (bs.set c true).getD c false = true := by
  rw [List.getD_eq_getElem?_getD, List.getElem?_set_self',
    List.getElem?_eq_getElem hlt]
  rfl

lemma foldl_setTrue_length (idx : List ℕ) :
    ∀ bs : List Bool,
      (idx.foldl (fun acc i => acc.set i true) bs).length = bs.length := by
  induction idx with
  | nil => intro bs; rfl
  | cons j rest ih =>
      intro bs
      simp only [List.foldl_cons]
      rw [ih]
      exact List.length_set bs j true

lemma foldl_setTrue_of (idx : List ℕ) :
    ∀ (bs : List Bool) (c : ℕ), c < bs.length →
      (c ∈ idx ∨ bs.getD c false = true) →
      (idx.foldl (fun acc i => acc.set i true) bs).getD c false = true := by
  induction idx with
  | nil =>
      intro bs c _ h
      rcases h with h | h
      · cases h
      · exact h
  | cons j rest ih =>
      intro bs c hlt h
      simp only [List.foldl_cons]
      apply ih (bs.set j true) c (by simpa using hlt)
      rcases h with h | h
      · rcases List.mem_cons.mp h with rfl | h2
        · exact Or.inr (getD_set_true_self hlt)
        · exact Or.inl h2
      · exact Or.inr (getD_set_true h)

lemma boolSetTrue_length {bs : List Bool} {idx : List ℕ} {r : List Bool}
    (h : boolSetTrue bs idx = some r) : r.length = bs.length := by
  unfold boolSetTrue at h
  split at h
  · cases h
    exact foldl_setTrue_length idx bs
  · cases h

lemma boolSetTrue_of {bs : List Bool} {idx : List ℕ} {r : List Bool} {c : ℕ}
    (h : boolSetTrue bs idx = some r) (hlt : c < bs.length)
    (hc : c ∈ idx ∨ bs.getD c false = true) : r.getD c false = true := by
  unfold boolSetTrue at h
  split at h
  · cases h
    exact foldl_setTrue_of idx bs c hlt hc
  · cases h

lemma stepMask_length {am : List Bool} {bv : BasisOut} {r : List Bool}
    (h : stepMask am bv = some r) : r.length = am.length := by
  unfold stepMask at h
  obtain ⟨m1, hm1, h2⟩ := Option.bind_eq_some.mp h
  have hl1 := boolSetTrue_length hm1
  cases hbv : bv.mask with
  | none =>
      rw [hbv] at h2
      cases h2
      exact hl1
  | some bm =>
      rw [hbv] at h2
      exact (boolSetTrue_length h2).trans hl1

lemma stepMask_mono {am : List Bool} {bv : BasisOut} {r : List Bool} {c : ℕ}
    (h : stepMask am bv = some r) (hc : am.getD c false = true) :
    r.getD c false = true := by
  unfold stepMask at h
  obtain ⟨m1, hm1, h2⟩ := Option.bind_eq_some.mp h
  have h1 : m1.getD c false = true :=
    boolSetTrue_of hm1 (getD_true_lt hc) (Or.inr hc)
  cases hbv : bv.mask with
  | none =>
      rw [hbv] at h2
      cases h2
      exact h1
  | some bm =>
      rw [hbv] at h2
      exact boolSetTrue_of h2 (getD_true_lt h1) (Or.inr h1)

lemma stepMask_sets {am : List Bool} {bv : BasisOut} {r : List Bool} {c : ℕ}
    (h : stepMask am bv = some r) (hlt : c < am.length)
    (hu : unitMasksCell bv c = true) : r.getD c false = true := by
  unfold stepMask at h
  obtain ⟨m1, hm1, h2⟩ := Option.bind_eq_some.mp h
  have hl1 := boolSetTrue_length hm1
  unfold unitMasksCell at hu
  rcases Bool.or_eq_true_iff.mp hu with hu1 | hu2
  · have h1 : m1.getD c false = true :=
      boolSetTrue_of hm1 hlt (Or.inl (of_decide_eq_true hu1))
    cases hbv : bv.mask with
    | none =>
        rw [hbv] at h2
        cases h2
        exact h1
    | some bm =>
        rw [hbv] at h2
        exact boolSetTrue_of h2 (getD_true_lt h1) (Or.inr h1)
  · cases hbv : bv.mask with
    | none =>
        rw [hbv] at hu2
        cases hu2
    | some bm =>
        rw [hbv] at hu2
        rw [hbv] at h2
        exact boolSetTrue_of h2 (by rw [hl1]; exact hlt)
          (Or.inl (whereTrue_mem.mpr hu2))

lemma bfStep_parts {acc : CompAcc} {bfw : (List ℕ → BasisOut) × F}
    {acc' : CompAcc} (h : bfStep acc bfw = some acc') :
    stepMask acc.accMask (bfw.1 acc.indx) = some acc'.accMask ∧
      acc'.outs = acc.outs ++ [bfw.1 acc.indx] := by
  simp only [bfStep] at h
  split at h
  case isFalse => simp at h
  case isTrue =>
    obtain ⟨u, hu, h2⟩ := Option.bind_eq_some.mp h
    obtain ⟨m2, hm2, h3⟩ := Option.bind_eq_some.mp h2
    split at h3
    · obtain ⟨y, hy, h4⟩ := Option.bind_eq_some.mp h3
      rw [← Option.some.inj h4]
      exact ⟨hm2, rfl⟩
    · split at h3
      · obtain ⟨y, hy, h4⟩ := Option.bind_eq_some.mp h3
        rw [← Option.some.inj h4]
        exact ⟨hm2, rfl⟩
      · obtain ⟨y, hy, h4⟩ := Option.bind_eq_some.mp h3
        cases hy

lemma loop_mask_invariant
    (l : List ((List ℕ → BasisOut) × F)) :
    ∀ acc accF, l.foldlM bfStep acc = some accF →
      (∀ o ∈ acc.outs, ∀ c, c < acc.accMask.length →
        unitMasksCell o c = true → acc.accMask.getD c false = true) →
      accF.accMask.length = acc.accMask.length ∧
        (∀ o ∈ accF.outs, ∀ c, c < accF.accMask.length →
          unitMasksCell o c = true → accF.accMask.getD c false = true) := by
  induction l with
  | nil =>
      intro acc accF h hJ
      cases h
      exact ⟨rfl, hJ⟩
  | cons bfw rest ih =>
      intro acc accF h hJ
      rw [List.foldlM_cons] at h
      obtain ⟨acc1, hstep, hrest⟩ := Option.bind_eq_some.mp h
      obtain ⟨hsm, houts⟩ := bfStep_parts hstep
      have hlen1 : acc1.accMask.length = acc.accMask.length :=
        stepMask_length hsm
      have hJ1 : ∀ o ∈ acc1.outs, ∀ c, c < acc1.accMask.length →
          unitMasksCell o c = true → acc1.accMask.getD c false = true := by
        intro o ho c hc hu
        rw [houts] at ho
        rw [hlen1] at hc
        rcases List.mem_append.mp ho with ho1 | ho2
        · exact stepMask_mono hsm (hJ o ho1 c hc hu)
        · rcases List.mem_singleton.mp ho2 with rfl
          exact stepMask_sets hsm hc hu
      obtain ⟨hlenF, hJF⟩ := ih acc1 accF hrest hJ1
      exact ⟨hlenF.trans hlen1, hJF⟩

lemma setWhere_getD {a : List F} {bs : List Bool} {x : F} {r : List F} {c : ℕ}
    (h : setWhere a bs x = some r) (hc : bs.getD c false = true) :
    r.getD c F.nan = x := by
  unfold setWhere at h
  split at h
  · rename_i hlen
    cases h
    have hcl : c < bs.length := getD_true_lt hc
    have hca : c < a.length := by rw [← hlen]; exact hcl
    rw [List.getD_eq_getElem?_getD, List.getElem?_zipWith]
    rw [List.getElem?_eq_getElem hca, List.getElem?_eq_getElem hcl]
    simp only [Option.map_some']
    have : bs[c] = true := by
      rw [List.getD_eq_getElem?_getD, List.getElem?_eq_getElem hcl] at hc
      simpa using hc
    simp [this]
  · cases h

lemma insertUniq_mem {i x : ℕ} : ∀ {l : List ℕ},
    x ∈ insertUniq i l ↔ x = i ∨ x ∈ l := by
  intro l
  induction l with
  | nil => simp [insertUniq]
  | cons j rest ih =>
      unfold insertUniq
      by_cases h1 : i < j
      · rw [if_pos h1]
        exact List.mem_cons
      · rw [if_neg h1]
        by_cases h2 : i = j
        · subst h2
          rw [if_pos rfl]
          constructor
          · exact fun hx => Or.inr hx
          · intro hx
            rcases hx with rfl | hx2
            · exact List.mem_cons_self _ _
            · exact hx2
        · rw [if_neg h2]
          constructor
          · intro hx
            rcases List.mem_cons.mp hx with rfl | hx2
            · exact Or.inr (List.mem_cons_self _ _)
            · rcases ih.mp hx2 with rfl | h3
              · exact Or.inl rfl
              · exact Or.inr (List.mem_cons_of_mem _ h3)
          · intro hx
            rcases hx with rfl | hx2
            · exact List.mem_cons_of_mem _ (ih.mpr (Or.inl rfl))
            · rcases List.mem_cons.mp hx2 with rfl | h3
              · exact List.mem_cons_self _ _
              · exact List.mem_cons_of_mem _ (ih.mpr (Or.inr h3))

lemma npUnique_mem {x : ℕ} {l : List ℕ} : x ∈ npUnique l ↔ x ∈ l := by
  unfold npUnique
  suffices h : ∀ acc : List ℕ,
      x ∈ l.foldl (fun a i => insertUniq i a) acc ↔ x ∈ acc ∨ x ∈ l by
    simpa using h []
  induction l with
  | nil => intro acc; simp
  | cons j rest ih =>
      intro acc
      simp only [List.foldl_cons, ih, insertUniq_mem, List.mem_cons]
      tauto

lemma forall₂_mem_right {α β : Type} {R : α → β → Prop} :
    ∀ {l : List α} {r : List β}, List.Forall₂ R l r →
      ∀ b ∈ r, ∃ a ∈ l, R a b := by
  intro l r h
  induction h with
  | nil => intro b hb; cases hb
  | cons hR _ ih =>
      intro b hb
      rcases List.mem_cons.mp hb with rfl | hb2
      · exact ⟨_, by simp, hR⟩
      · obtain ⟨a, ha, hab⟩ := ih b hb2
        exact ⟨a, by simp [ha], hab⟩

/-- C2 (amended): provided the composite surface holds no infinity at an
unmasked cell (so the whole-surface collapse does not fire), any cell flagged
by *any* scoring unit during the composite loop — sentinel-valued or covered
by the unit's mask — ends up masked and sentinel-valued (`UNSEEN`) in the
composite surface, belongs to no alt/az mask's candidate-cell set, and every
candidate field of every alt/az mask is drawn from candidate (non-sentinel)
cells only.  (When a unit drives some unmasked cell to ±infinity the whole
surface is replaced by a scalar and the per-cell property fails — see the
counterexample.) -/
theorem C2_sentinel_propagates (s : BlockSurvey) (cr : CompositeResult)
    (c : ℕ)
    (hsm : s.smoothing_kernel = none)
    (hcr : compositeStep true s.npix s.basis_functions s.basis_weights
      s.smoothing_kernel = some cr)
    (hc : c < s.npix)
    (hmask : ∃ o ∈ cr.outs, unitMasksCell o c = true)
    (hnc : cr.collapsed = false) :
    cr.cmask.getD c false = true ∧
    cr.data.getD c F.nan = UNSEEN ∧
    (∀ am ∈ s.alt_az_masks, c ∉ goodCells s cr am) ∧
    (∀ am ∈ s.alt_az_masks, ∀ uf, maskUfields s cr am = some uf →
      ∀ f ∈ uf, ∃ i ∈ goodCells s cr am, s.hp2fields.get? i = some f) := by
  rw [hsm] at hcr
  obtain ⟨acc, d1, hacc, hrd, hrm, hd1, hcrEq⟩ := compositeStep_fields hcr
  have hinit : ∀ o ∈ (⟨none, none, List.replicate s.npix false,
      List.range s.npix, []⟩ : CompAcc).outs, ∀ c0,
      c0 < (⟨none, none, List.replicate s.npix false,
        List.range s.npix, []⟩ : CompAcc).accMask.length →
      unitMasksCell o c0 = true →
      (⟨none, none, List.replicate s.npix false,
        List.range s.npix, []⟩ : CompAcc).accMask.getD c0 false = true := by
    intro o ho
    cases ho
  obtain ⟨hlen, hJ⟩ := loop_mask_invariant _ _ _ hacc hinit
  have hlenN : acc.accMask.length = s.npix := by simpa using hlen
  have haccm : acc.accMask.getD c false = true := by
    obtain ⟨o, ho, hu⟩ := hmask
    rw [hcrEq] at ho
    exact hJ o ho c (by rw [hlenN]; exact hc) hu
  have hmaskc : cr.cmask.getD c false = true := by
    rw [hcrEq]
    exact haccm
  have hdata : cr.data.getD c F.nan = UNSEEN := by
    rw [hcrEq]
    exact setWhere_getD hd1 haccm
  refine ⟨hmaskc, hdata, ?_, ?_⟩
  · intro am _ hmem
    unfold goodCells at hmem
    simp only [List.mem_filter, List.mem_range, Bool.and_eq_true,
      Bool.not_eq_true'] at hmem
    rw [hmaskc] at hmem
    exact absurd hmem.2.1.1 (by simp)
  · intro am _ uf huf f hf
    unfold maskUfields at huf
    obtain ⟨fields, hfields, hret⟩ := Option.bind_eq_some.mp huf
    have huf2 : uf = npUnique fields := (Option.some.inj hret).symm
    have hfmem : f ∈ fields := npUnique_mem.mp (huf2 ▸ hf)
    have hfa := mapM_forall₂ (fun i => s.hp2fields.get? i) hfields
    exact forall₂_mem_right hfa f hfmem

/-- A unit masking cell 0 (and finite elsewhere). -/
def exBfMasked0 : BasisOut := ⟨[F.fin 0, F.fin 0], some [true, false]⟩

/-- A second unit reporting `+inf` at cell 1 (nothing masked). -/
def exBfInf1 : BasisOut := ⟨[F.fin 0, F.pinf], some [false, false]⟩

/-- A feasible two-cell `Block_survey`: unit 0 masks cell 0, unit 1 puts
`+inf` at cell 1. -/
def exBlockC2 : BlockSurvey :=
  { exBlockInf with
    mounted_filters := ["r"]
    npix := 2
    basis_functions := [fun _ => exBfMasked0, fun _ => exBfInf1]
    basis_weights := [F.fin 1, F.fin 1]
    alt_az_masks := [[F.fin 1, F.fin 1]]
    hp2fields := [0, 1]
    interp := fun am _ _ => am
    altaz_alt := [F.fin 0, F.fin 0]
    altaz_az := [F.fin 0, F.fin 0] }

/-- C2 counterexample: unit 0 masks cell 0, yet because *another* unit drives
cell 1 to `+inf`, the whole surface collapses to a scalar and the reward
computation raises — there is no composite surface holding the sentinel at
cell 0, so the claim's "regardless of the values of all other scoring units"
is false. -/
theorem C2_counterexample_inf_overrides_mask :
    unitMasksCell exBfMasked0 0 = true ∧
      blockFeasible exBlockC2 = true ∧
      (compositeStep true exBlockC2.npix exBlockC2.basis_functions
          exBlockC2.basis_weights exBlockC2.smoothing_kernel).map
        (fun cr => (cr.cmask, cr.collapsed)) = some ([true, false], true) ∧
      blockCalcCore exBlockC2 = none := by
  refine ⟨by decide, by decide, by decide, by decide⟩

/-- The same survey with the infinite unit removed: no collapse. -/
def exBlockC2W : BlockSurvey :=
  { exBlockC2 with
    basis_functions := [fun _ => exBfMasked0]
    basis_weights := [F.fin 1] }

/-- The composite result of `exBlockC2W`. -/
def exCrC2W : CompositeResult :=
  ⟨[UNSEEN, F.fin 0], [true, false], false, [exBfMasked0]⟩

/-- C2 witness: the amended propagation theorem applied to the concrete
survey without the infinity — cell 0 is sentinel and is not a candidate cell
of the (single) alt/az mask. -/
theorem C2_sentinel_witness :
    exCrC2W.cmask.getD 0 false = true ∧
      exCrC2W.data.getD 0 F.nan = UNSEEN ∧
      0 ∉ goodCells exBlockC2W exCrC2W [F.fin 1, F.fin 1] := by
  have h := C2_sentinel_propagates exBlockC2W exCrC2W 0 rfl (by decide)
    (by decide) ⟨exBfMasked0, by decide, by decide⟩ (by decide)
  exact ⟨h.1, h.2.1, h.2.2.1 [F.fin 1, F.fin 1] (by decide)⟩

/-! ### C5: the alt/az mask competition -/

lemma fmax_not_inf {a b : F} (ha : F.isInf a = false) (hb : F.isInf b = false) :
    F.isInf (F.fmax a b) = false := by
  unfold F.fmax
  split
  · rfl
  · split
    · exact hb
    · exact ha

lemma foldl_fmax_not_inf : ∀ (r : List F) (a : F), F.isInf a = false →
    (∀ y ∈ r, F.isInf y = false) → F.isInf (r.foldl F.fmax a) = false := by
  intro r
  induction r with
  | nil => exact fun a ha _ => ha
  | cons y rr ih =>
      intro a ha hr
      simp only [List.foldl_cons]
      exact ih (F.fmax a y) (fmax_not_inf ha (hr y (by simp)))
        fun z hz => hr z (by simp [hz])

lemma max_reject_not_inf {l : List F} (h : ∀ x ∈ l, F.isInf x = false) :
    F.isInf (max_reject l) = false := by
  unfold max_reject
  cases l with
  | nil => rfl
  | cons x r =>
      exact foldl_fmax_not_inf r x (h x (by simp))
        fun y hy => h y (by simp [hy])

lemma gt_ninf_fin {v : F} (h1 : F.gt v F.ninf = true)
    (h2 : F.isInf v = false) : ∃ q, v = F.fin q := by
  cases v with
  | fin q => exact ⟨q, rfl⟩
  | pinf => cases h2
  | ninf => cases h1
  | nan => cases h1

lemma add_fin {a b : F} (ha : ∃ q, a = F.fin q) (hb : ∃ q, b = F.fin q) :
    ∃ q, F.add a b = F.fin q := by
  obtain ⟨qa, rfl⟩ := ha
  obtain ⟨qb, rfl⟩ := hb
  exact ⟨qa + qb, rfl⟩

lemma foldl_add_fin : ∀ (l : List F) (a : F), (∃ q, a = F.fin q) →
    (∀ x ∈ l, ∃ q, x = F.fin q) → ∃ q, l.foldl F.add a = F.fin q := by
  intro l
  induction l with
  | nil => exact fun a ha _ => ha
  | cons x r ih =>
      intro a ha h
      simp only [List.foldl_cons]
      exact ih _ (add_fin ha (h x (by simp))) fun z hz => h z (by simp [hz])

lemma npSum_fin {l : List F} (h : ∀ x ∈ l, ∃ q, x = F.fin q) :
    ∃ q, npSum l = F.fin q :=
  foldl_add_fin l (F.fin 0) ⟨0, rfl⟩ h

lemma int_binned_stat_vals {ids : List ℕ} {vals : List F}
    {stat : List F → F} {v : F}
    (hv : v ∈ (int_binned_stat ids vals stat).2) :
    ∃ group : List F, (∀ x ∈ group, x ∈ vals) ∧ v = stat group := by
  unfold int_binned_stat at hv
  simp only [List.mem_map] at hv
  obtain ⟨f, _, hfv⟩ := hv
  refine ⟨_, ?_, hfv.symm⟩
  intro x hx
  simp only [List.mem_map, List.mem_filter] at hx
  obtain ⟨p, ⟨hpz, _⟩, hpx⟩ := hx
  rw [← hpx]
  exact (List.mem_zip hpz).2

/-- Values surviving the `-inf` toss of a non-collapsed surface are finite. -/
lemma maskGoodPairs_fin (s : BlockSurvey) (cr : CompositeResult)
    (am : List F) (gp : List (ℕ × F))
    (hfin : ∀ x ∈ filledData s cr, F.isInf x = false)
    (hgp : maskGoodPairs s cr am = some gp) :
    ∀ p ∈ gp, ∃ q, p.2 = F.fin q := by
  intro p hp
  unfold maskGoodPairs at hgp
  obtain ⟨br, hbr, hret⟩ := Option.bind_eq_some.mp hgp
  have hgp2 : gp = (br.1.zip br.2).filter fun p => F.gt p.2 F.ninf :=
    (Option.some.inj hret).symm
  rw [hgp2] at hp
  simp only [List.mem_filter] at hp
  obtain ⟨hpz, hpgt⟩ := hp
  have hv2 : p.2 ∈ br.2 := (List.mem_zip hpz).2
  unfold maskBinned at hbr
  obtain ⟨uf, huf, hbr2⟩ := Option.bind_eq_some.mp hbr
  have hbrEq : br = int_binned_stat
      (((s.hp2fields.zip (filledData s cr)).filter
        fun pr => uf.contains pr.1).map (·.1))
      (((s.hp2fields.zip (filledData s cr)).filter
        fun pr => uf.contains pr.1).map (·.2)) max_reject :=
    (Option.some.inj hbr2).symm
  rw [hbrEq] at hv2
  obtain ⟨group, hgroup, hvstat⟩ := int_binned_stat_vals hv2
  have hnotinf : F.isInf p.2 = false := by
    rw [hvstat]
    apply max_reject_not_inf
    intro x hx
    have hxv := hgroup x hx
    simp only [List.mem_map] at hxv
    obtain ⟨pr, hprmem, hprx⟩ := hxv
    have hpr2 : pr ∈ s.hp2fields.zip (filledData s cr) :=
      (List.mem_filter.mp hprmem).1
    have hxfd : x ∈ filledData s cr := by
      rw [← hprx]
      exact (List.mem_zip hpr2).2
    exact hfin x hxfd
  exact gt_ninf_fin hpgt hnotinf

/-! ### C5: mask scoring, blob selection and block emission -/

/-- On a non-collapsed composite, the filled surface has no infinities
(masked cells are filled with the finite sentinel; an unmasked infinity
would have fired the collapse). -/
lemma filledData_fin (s : BlockSurvey) (cr : CompositeResult)
    (hcr : compositeStep true s.npix s.basis_functions s.basis_weights none
      = some cr)
    (hnc : cr.collapsed = false) :
    ∀ x ∈ filledData s cr, F.isInf x = false := by
  obtain ⟨acc, d1, hacc, hrd, hrm, hd1, hcrEq⟩ := compositeStep_fields hcr
  intro x hx
  unfold filledData at hx
  simp only [List.mem_map, List.mem_range] at hx
  obtain ⟨i, hi, hxi⟩ := hx
  subst hcrEq
  simp only at hxi hnc
  rw [Bool.true_and, List.any_eq_false] at hnc
  have hnci := hnc i (List.mem_range.mpr hi)
  by_cases hm : acc.accMask.getD i false
  · rw [if_pos hm] at hxi
    rw [← hxi]
    rfl
  · rw [if_neg hm] at hxi
    rw [← hxi]
    rw [Bool.not_eq_true] at hm
    have hmux : acc.accMask[i]?.getD false = false := by simpa using hm
    simpa [hmux] using hnci

lemma le_refl_F {a : F} (ha : a ≠ F.nan) : F.le a a = true := by
  cases a with
  | fin q => simp [F.le]
  | pinf => rfl
  | ninf => rfl
  | nan => exact absurd rfl ha

lemma le_of_lt_F {a b : F} (h : F.lt a b = true) : F.le a b = true := by
  cases a <;> cases b <;> simp_all [F.lt, F.le] <;> linarith

lemma le_trans_F {a b c : F} (hab : F.le a b = true) (hbc : F.le b c = true) :
    F.le a c = true := by
  cases a <;> cases b <;> cases c <;> simp_all [F.le] <;> linarith

lemma le_of_not_lt_F {a b : F} (ha : a ≠ F.nan) (hb : b ≠ F.nan)
    (h : ¬ F.lt a b = true) : F.le b a = true := by
  cases a <;> cases b <;> simp_all [F.lt, F.le] <;> linarith

lemma fmax_nonnan {a b : F} (ha : a ≠ F.nan) (hb : b ≠ F.nan) :
    F.fmax a b ≠ F.nan := by
  unfold F.fmax
  rw [if_neg (by tauto)]
  split <;> assumption

lemma fmax_eq_or (a b : F) :
    F.fmax a b = a ∨ F.fmax a b = b ∨ F.fmax a b = F.nan := by
  unfold F.fmax
  split
  · right; right; rfl
  · split
    · right; left; rfl
    · left; rfl

lemma le_fmax_left {a b : F} (ha : a ≠ F.nan) (hb : b ≠ F.nan) :
    F.le a (F.fmax a b) = true := by
  unfold F.fmax
  rw [if_neg (by tauto)]
  split
  · exact le_of_lt_F (by assumption)
  · exact le_refl_F ha

lemma le_fmax_right {a b : F} (ha : a ≠ F.nan) (hb : b ≠ F.nan) :
    F.le b (F.fmax a b) = true := by
  unfold F.fmax
  rw [if_neg (by tauto)]
  split
  · exact le_refl_F hb
  · exact le_of_not_lt_F ha hb (by simp_all)

lemma foldl_fmax_spec : ∀ (r : List F) (a : F), a ≠ F.nan →
    (∀ y ∈ r, y ≠ F.nan) →
    ((r.foldl F.fmax a = a ∨ r.foldl F.fmax a ∈ r) ∧
      F.le a (r.foldl F.fmax a) = true ∧
      ∀ y ∈ r, F.le y (r.foldl F.fmax a) = true) := by
  intro r
  induction r with
  | nil =>
      intro a ha _
      exact ⟨Or.inl rfl, le_refl_F ha, by simp⟩
  | cons y rr ih =>
      intro a ha hr
      have hy : y ≠ F.nan := hr y (by simp)
      have hfm : F.fmax a y ≠ F.nan := fmax_nonnan ha hy
      have hrr : ∀ z ∈ rr, z ≠ F.nan := fun z hz => hr z (by simp [hz])
      obtain ⟨hmem, hle, hall⟩ := ih (F.fmax a y) hfm hrr
      simp only [List.foldl_cons]
      refine ⟨?_, le_trans_F (le_fmax_left ha hy) hle, ?_⟩
      · rcases hmem with he | hm
        · rcases fmax_eq_or a y with h1 | h1 | h1
          · left
            rw [he, h1]
          · right
            rw [he, h1]
            simp
          · exact absurd h1 hfm
        · right
          exact List.mem_cons_of_mem y hm
      · intro z hz
        rcases List.mem_cons.mp hz with rfl | hz2
        · exact le_trans_F (le_fmax_right ha hy) hle
        · exact hall z hz2

/-- `np.max` of a NaN-free nonempty array is a member bounding every entry. -/
lemma npMax_spec {l : List F} {m : F} (hl : ∀ x ∈ l, x ≠ F.nan)
    (hm : npMax l = some m) : m ∈ l ∧ ∀ x ∈ l, F.le x m = true := by
  unfold npMax at hm
  cases l with
  | nil => cases hm
  | cons x r =>
      have hx : x ≠ F.nan := hl x (by simp)
      have hr : ∀ y ∈ r, y ≠ F.nan := fun y hy => hl y (by simp [hy])
      obtain ⟨hmem, hle, hall⟩ := foldl_fmax_spec r x hx hr
      have hmEq : m = r.foldl F.fmax x := (Option.some.inj hm).symm
      subst hmEq
      refine ⟨?_, ?_⟩
      · rcases hmem with he | hmm
        · rw [he]
          simp
        · exact List.mem_cons_of_mem x hmm
      · intro z hz
        rcases List.mem_cons.mp hz with rfl | hz2
        · exact hle
        · exact hall z hz2

lemma beq_refl_F {a : F} (ha : a ≠ F.nan) : F.beq a a = true := by
  cases a <;> simp_all [F.beq]

lemma beq_eq_F {a b : F} (ha : a ≠ F.nan) (h : F.beq a b = true) : a = b := by
  cases a <;> cases b <;> simp_all [F.beq]

lemma whereTrue_pairwise (bs : List Bool) :
    List.Pairwise (· < ·) (whereTrue bs) :=
  List.Pairwise.filter _ (List.pairwise_lt_range _)

/-- The head of `np.where(bs)[0]` is the *least* true position. -/
lemma whereTrue_head_least {bs : List Bool} {i : ℕ}
    (h : (whereTrue bs).head? = some i) :
    bs.getD i false = true ∧ ∀ j < i, bs.getD j false = false := by
  cases hw : whereTrue bs with
  | nil => rw [hw] at h; cases h
  | cons a t =>
      rw [hw] at h
      have ha : a = i := by simpa using h
      subst ha
      have hpw := whereTrue_pairwise bs
      rw [hw] at hpw
      constructor
      · exact whereTrue_mem.mp (by rw [hw]; exact List.mem_cons_self a t)
      · intro j hj
        cases hgd : bs.getD j false with
        | false => rfl
        | true =>
            have hjm : j ∈ whereTrue bs := whereTrue_mem.mpr hgd
            rw [hw] at hjm
            rcases List.mem_cons.mp hjm with rfl | hjt
            · omega
            · rcases hpw with _ | ⟨hat, _⟩
              exact absurd (hat j hjt) (by omega)

lemma mapM_length {α β : Type} {g : α → Option β} {l : List α} {r : List β}
    (h : l.mapM g = some r) : r.length = l.length :=
  (mapM_forall₂ g h).length_eq.symm

/-- Destructuring one pass of the alt/az-mask loop: a returned `MaskStat` is
either the `-inf`/placeholder result of a mask with too few surviving fields,
or the top-`nvisit_block` selection of a qualifying mask. -/
lemma maskEval_parts {s : BlockSurvey} {cr : CompositeResult} {am : List F}
    {st : MaskStat} (hst : maskEval s cr am = some st) :
    ∃ gp rm, maskGoodPairs s cr am = some gp ∧
      ((gp.length < s.nvisit_block ∧
          st = ⟨rm, BestFields.placeholder, F.ninf⟩) ∨
       (s.nvisit_block ≤ gp.length ∧
        ∃ chosen, (((argsortDesc (gp.map (·.2))).take s.nvisit_block).mapM
            fun k => (gp.map (·.1)).get? k) = some chosen ∧
          st = ⟨rm, BestFields.flds chosen,
            npSum (((argsortDesc (gp.map (·.2))).take s.nvisit_block).map
              fun k => (gp.map (·.2)).getD k F.nan)⟩)) := by
  simp only [maskEval] at hst
  split at hst
  case isFalse => simp at hst
  case isTrue =>
  obtain ⟨u, hu, h1⟩ := Option.bind_eq_some.mp hst
  obtain ⟨gvals, hgv, h2⟩ := Option.bind_eq_some.mp h1
  obtain ⟨rm, hrm, h3⟩ := Option.bind_eq_some.mp h2
  obtain ⟨gp, hgp, h4⟩ := Option.bind_eq_some.mp h3
  refine ⟨gp, rm, hgp, ?_⟩
  split at h4
  · left
    exact ⟨by assumption, (Option.some.inj h4).symm⟩
  · right
    obtain ⟨chosen, hch, h5⟩ := Option.bind_eq_some.mp h4
    exact ⟨Nat.le_of_not_lt (by assumption), chosen, hch,
      (Option.some.inj h5).symm⟩

/-- A returned scoring unit's reward per mask is `-inf` or finite (never NaN,
never `+inf`) on a non-collapsed surface. -/
lemma maskEval_reward_cases {s : BlockSurvey} {cr : CompositeResult}
    {am : List F} {st : MaskStat}
    (hfin : ∀ x ∈ filledData s cr, F.isInf x = false)
    (hst : maskEval s cr am = some st) :
    st.reward = F.ninf ∨ ∃ q, st.reward = F.fin q := by
  obtain ⟨gp, rm, hgp, hcases⟩ := maskEval_parts hst
  rcases hcases with ⟨_, hsteq⟩ | ⟨_, chosen, _, hsteq⟩
  · left
    rw [hsteq]
  · right
    rw [hsteq]
    apply npSum_fin
    intro x hx
    simp only [List.mem_map] at hx
    obtain ⟨k, hk, hxk⟩ := hx
    have hk2 : k < (gp.map (·.2)).length :=
      argsortDesc_mem (List.mem_of_mem_take hk)
    have hx2 : x ∈ gp.map (·.2) := by
      rw [← hxk, List.getD_eq_getElem?_getD, List.getElem?_eq_getElem hk2]
      exact List.getElem_mem hk2
    simp only [List.mem_map] at hx2
    obtain ⟨p, hp, hpx⟩ := hx2
    obtain ⟨q, hq⟩ := maskGoodPairs_fin s cr am gp hfin hgp p hp
    exact ⟨q, by rw [← hpx, hq]⟩

/-- A mask whose reward is not `-inf` reached at least `nvisit_block`
surviving fields, and its pointings are a block of exactly `nvisit_block`
field ids. -/
lemma maskEval_selected {s : BlockSurvey} {cr : CompositeResult}
    {am : List F} {st : MaskStat}
    (hst : maskEval s cr am = some st) (hne : st.reward ≠ F.ninf) :
    ∃ gp chosen, maskGoodPairs s cr am = some gp ∧
      s.nvisit_block ≤ gp.length ∧
      st.pointings = BestFields.flds chosen ∧
      chosen.length = s.nvisit_block ∧
      ∀ f ∈ chosen, f ∈ gp.map (·.1) := by
  obtain ⟨gp, rm, hgp, hcases⟩ := maskEval_parts hst
  rcases hcases with ⟨_, hsteq⟩ | ⟨hK, chosen, hch, hsteq⟩
  · exact absurd (by rw [hsteq]) hne
  · refine ⟨gp, chosen, hgp, hK, by rw [hsteq], ?_, ?_⟩
    · rw [mapM_length hch, List.length_take, argsortDesc_length,
        List.length_map]
      omega
    · intro f hf
      obtain ⟨k, _, hrel⟩ := forall₂_mem_right (mapM_forall₂ _ hch) f hf
      exact List.get?_mem hrel

/-- A qualifying mask (at least `nvisit_block` surviving fields) is scored
with a *finite* aggregate on a non-collapsed surface. -/
lemma maskEval_qualifier {s : BlockSurvey} {cr : CompositeResult}
    {am : List F} {st : MaskStat} {gp : List (ℕ × F)}
    (hfin : ∀ x ∈ filledData s cr, F.isInf x = false)
    (hst : maskEval s cr am = some st)
    (hgp : maskGoodPairs s cr am = some gp)
    (hKle : s.nvisit_block ≤ gp.length) :
    ∃ q, st.reward = F.fin q := by
  obtain ⟨gp2, rm, hgp2, hcases⟩ := maskEval_parts hst
  rw [hgp] at hgp2
  have hgpe : gp = gp2 := Option.some.inj hgp2
  subst hgpe
  rcases hcases with ⟨hlt, _⟩ | ⟨_, chosen, hch, hsteq⟩
  · omega
  · rw [hsteq]
    apply npSum_fin
    intro x hx
    simp only [List.mem_map] at hx
    obtain ⟨k, hk, hxk⟩ := hx
    have hk2 : k < (gp.map (·.2)).length :=
      argsortDesc_mem (List.mem_of_mem_take hk)
    have hx2 : x ∈ gp.map (·.2) := by
      rw [← hxk, List.getD_eq_getElem?_getD, List.getElem?_eq_getElem hk2]
      exact List.getElem_mem hk2
    simp only [List.mem_map] at hx2
    obtain ⟨p, hp, hpx⟩ := hx2
    obtain ⟨q, hq⟩ := maskGoodPairs_fin s cr am gp hfin hgp p hp
    exact ⟨q, by rw [← hpx, hq]⟩

/-- A below-block-size mask is scored `-inf` with the int-`0` placeholder. -/
lemma maskEval_below {s : BlockSurvey} {cr : CompositeResult}
    {am : List F} {st : MaskStat} {gp : List (ℕ × F)}
    (hst : maskEval s cr am = some st)
    (hgp : maskGoodPairs s cr am = some gp)
    (hlt : gp.length < s.nvisit_block) :
    st.reward = F.ninf ∧ st.pointings = BestFields.placeholder := by
  obtain ⟨gp2, rm, hgp2, hcases⟩ := maskEval_parts hst
  rw [hgp] at hgp2
  have hgpe : gp2 = gp := Option.some.inj hgp2.symm
  subst hgpe
  rcases hcases with ⟨_, hsteq⟩ | ⟨hK, _, _, _⟩
  · exact ⟨by rw [hsteq], by rw [hsteq]⟩
  · omega

/-- Every field id surviving the `-inf` toss appears in `hp2fields`. -/
lemma maskGoodPairs_ids {s : BlockSurvey} {cr : CompositeResult}
    {am : List F} {gp : List (ℕ × F)}
    (hgp : maskGoodPairs s cr am = some gp) :
    ∀ p ∈ gp, p.1 ∈ s.hp2fields := by
  intro p hp
  unfold maskGoodPairs at hgp
  obtain ⟨br, hbr, hret⟩ := Option.bind_eq_some.mp hgp
  have hgp2 : gp = (br.1.zip br.2).filter fun p => F.gt p.2 F.ninf :=
    (Option.some.inj hret).symm
  rw [hgp2] at hp
  have hp1 : p.1 ∈ br.1 := (List.mem_zip (List.mem_filter.mp hp).1).1
  unfold maskBinned at hbr
  obtain ⟨uf, huf, hbr2⟩ := Option.bind_eq_some.mp hbr
  rw [← Option.some.inj hbr2] at hp1
  unfold int_binned_stat at hp1
  simp only at hp1
  rw [npUnique_mem] at hp1
  simp only [List.mem_map, List.mem_filter] at hp1
  obtain ⟨pr, ⟨hprz, _⟩, hpr1⟩ := hp1
  rw [← hpr1]
  exact (List.mem_zip hprz).1

lemma forall₂_get? {α β : Type} {R : α → β → Prop} :
    ∀ {l : List α} {r : List β}, List.Forall₂ R l r →
      ∀ {i : ℕ} {a : α} {b : β}, l.get? i = some a → r.get? i = some b →
        R a b := by
  intro l r h
  induction h with
  | nil => intro i a b ha _; cases ha
  | cons hR _ ih =>
      intro i a b ha hb
      cases i with
      | zero =>
          cases ha
          cases hb
          exact hR
      | succ n => exact ih ha hb

lemma forall₂_get_left {α β : Type} {R : α → β → Prop} :
    ∀ {l : List α} {r : List β}, List.Forall₂ R l r →
      ∀ {i : ℕ} {a : α}, l.get? i = some a →
        ∃ b, r.get? i = some b ∧ R a b := by
  intro l r h
  induction h with
  | nil => intro i a ha; cases ha
  | cons hR _ ih =>
      intro i a ha
      cases i with
      | zero =>
          cases ha
          exact ⟨_, rfl, hR⟩
      | succ n => exact ih ha

lemma forall₂_get_right {α β : Type} {R : α → β → Prop} :
    ∀ {l : List α} {r : List β}, List.Forall₂ R l r →
      ∀ {i : ℕ} {b : β}, r.get? i = some b →
        ∃ a, l.get? i = some a ∧ R a b := by
  intro l r h
  induction h with
  | nil => intro i b hb; cases hb
  | cons hR _ ih =>
      intro i b hb
      cases i with
      | zero =>
          cases hb
          exact ⟨_, rfl, hR⟩
      | succ n => exact ih hb

lemma fancyGet_some {a : List F} :
    ∀ {idx : List ℕ}, (∀ i ∈ idx, i < a.length) →
      ∃ v, fancyGet a idx = some v ∧ v.length = idx.length := by
  intro idx
  induction idx with
  | nil => exact fun _ => ⟨[], rfl, rfl⟩
  | cons i rest ih =>
      intro h
      obtain ⟨v, hv, hvlen⟩ := ih fun j hj => h j (by simp [hj])
      refine ⟨a.get ⟨i, h i (by simp)⟩ :: v, ?_, by simp [hvlen]⟩
      unfold fancyGet at hv ⊢
      rw [List.mapM_cons, List.get?_eq_get (h i (by simp)), hv]
      rfl

/-- The projection centre exists whenever there is at least one pointing. -/
lemma projCenterG_some (fc fs : F → F) (fa : F → F → F) (fq : F → F)
    {alts : List F} (azs : List F) (h : alts ≠ []) :
    ∃ c, projCenterG fc fs fa fq alts azs = some c := by
  cases alts with
  | nil => exact absurd rfl h
  | cons a r => exact ⟨_, rfl⟩

lemma blockTagOf_notag {s : BlockSurvey} (h : s.tag_fields = false)
    (field : ℕ) : blockTagOf s field = some 1 := by
  unfold blockTagOf
  rw [h]
  rfl

lemma blockObsFor_some {s : BlockSurvey} {field : ℕ}
    (htag : s.tag_fields = false)
    (h1 : field < s.fields_RA.length) (h2 : field < s.fields_dec.length) :
    ∃ o, blockObsFor s field = some o := by
  unfold blockObsFor
  rw [List.get?_eq_get h1, List.get?_eq_get h2, blockTagOf_notag htag]
  exact ⟨_, rfl⟩

lemma blockEmit_notag_aux {s : BlockSurvey} {flds : List ℕ}
    (htag : s.tag_fields = false) :
    ∀ (order : List ℕ), (∀ k ∈ order, ∃ field, flds.get? k = some field ∧
        field < s.fields_RA.length ∧ field < s.fields_dec.length) →
      ∀ acc : List Obs, ∃ tl,
        order.foldlM (blockEmitStep s flds) acc = some (acc ++ tl) ∧
        List.Forall₂ (fun indx o => ∃ field, flds.get? indx = some field ∧
          blockObsFor s field = some o) order tl := by
  intro order
  induction order with
  | nil => exact fun _ acc => ⟨[], by simp, List.Forall₂.nil⟩
  | cons i rest ih =>
      intro h acc
      obtain ⟨field, hfld, hr1, hr2⟩ := h i (by simp)
      obtain ⟨o, ho⟩ := blockObsFor_some htag hr1 hr2
      have hstep : blockEmitStep s flds acc i = some (acc ++ [o]) := by
        unfold blockEmitStep
        rw [hfld, Option.bind_eq_bind, Option.some_bind,
          blockTagOf_notag htag, Option.bind_eq_bind, Option.some_bind]
        rw [if_neg (by decide), ho]
        rfl
      obtain ⟨tl, htl, hfa⟩ :=
        ih (fun k hk => h k (by simp [hk])) (acc ++ [o])
      refine ⟨o :: tl, ?_, List.Forall₂.cons ⟨field, hfld, ho⟩ hfa⟩
      rw [List.foldlM_cons, hstep]
      simpa using htl

/-- With field tagging off, the emission loop produces exactly one record per
routed index, in route order. -/
lemma blockEmit_notag_some {s : BlockSurvey} {flds order : List ℕ}
    (htag : s.tag_fields = false)
    (h : ∀ k ∈ order, ∃ field, flds.get? k = some field ∧
      field < s.fields_RA.length ∧ field < s.fields_dec.length) :
    ∃ obs, blockEmit s flds order = some obs ∧
      List.Forall₂ (fun indx o => ∃ field, flds.get? indx = some field ∧
        blockObsFor s field = some o) order obs := by
  obtain ⟨tl, htl, hfa⟩ := blockEmit_notag_aux htag order h []
  exact ⟨tl, by simpa [blockEmit] using htl, hfa⟩

/-- `np.min(np.where(rewards == np.max(rewards))[0])` on a NaN-free nonempty
reward list: the blob index exists, indexes a maximal-reward entry, and every
earlier entry has a strictly different (hence smaller) reward. -/
lemma blockBestBlob_spec {stats : List MaskStat}
    (hnn : ∀ st ∈ stats, st.reward ≠ F.nan) (hne : stats ≠ []) :
    ∃ b best, blockBestBlob stats = some b ∧ stats.get? b = some best ∧
      (∀ st ∈ stats, F.le st.reward best.reward = true) ∧
      ∀ i st, i < b → stats.get? i = some st → st.reward ≠ best.reward := by
  obtain ⟨m, hm⟩ : ∃ m, npMax (stats.map (·.reward)) = some m := by
    cases stats with
    | nil => exact absurd rfl hne
    | cons a r => exact ⟨_, rfl⟩
  have hnn2 : ∀ x ∈ stats.map (·.reward), x ≠ F.nan := by
    intro x hx
    obtain ⟨st, hst, hstx⟩ := List.mem_map.mp hx
    rw [← hstx]
    exact hnn st hst
  obtain ⟨hmem, hbound⟩ := npMax_spec hnn2 hm
  have hmnn : m ≠ F.nan := hnn2 m hmem
  have hbs_getD : ∀ (j : ℕ) (st : MaskStat), stats.get? j = some st →
      ((stats.map (·.reward)).map fun r => F.beq r m).getD j false
        = F.beq st.reward m := by
    intro j st hst
    rw [List.getD_eq_getElem?_getD, List.getElem?_map, List.getElem?_map,
      ← List.get?_eq_getElem?, hst]
    rfl
  obtain ⟨im, him⟩ := List.mem_iff_get?.mp hmem
  obtain ⟨stm, hstm, hstmr⟩ : ∃ stm, stats.get? im = some stm ∧
      stm.reward = m := by
    rw [List.get?_eq_getElem?, List.getElem?_map] at him
    cases hsg : stats[im]? with
    | none => rw [hsg] at him; cases him
    | some stm =>
        rw [hsg] at him
        exact ⟨stm, by rw [List.get?_eq_getElem?, hsg],
          Option.some.inj him⟩
  have hbsim : ((stats.map (·.reward)).map fun r => F.beq r m).getD im false
      = true := by
    rw [hbs_getD im stm hstm, hstmr]
    exact beq_refl_F hmnn
  have hmemw := whereTrue_mem.mpr hbsim
  have hwne := List.ne_nil_of_mem hmemw
  obtain ⟨b, t, hw⟩ := List.exists_cons_of_ne_nil hwne
  have hb : (whereTrue ((stats.map (·.reward)).map fun r => F.beq r m)).head?
      = some b := by
    rw [hw]
    rfl
  obtain ⟨hbt, hbleast⟩ := whereTrue_head_least hb
  have hblt : b < stats.length := by
    have := getD_true_lt hbt
    simpa using this
  obtain ⟨best, hbest⟩ : ∃ best, stats.get? b = some best :=
    ⟨stats.get ⟨b, hblt⟩, List.get?_eq_get hblt⟩
  have hbr : best.reward = m := by
    rw [hbs_getD b best hbest] at hbt
    exact beq_eq_F (hnn best (List.get?_mem hbest)) hbt
  refine ⟨b, best, ?_, hbest, ?_, ?_⟩
  · unfold blockBestBlob
    rw [hm, Option.bind_eq_bind, Option.some_bind]
    exact hb
  · intro st hst
    rw [hbr]
    exact hbound st.reward (List.mem_map.mpr ⟨st, hst, rfl⟩)
  · intro i st hib hst
    have hfalse := hbleast i hib
    rw [hbs_getD i st hst] at hfalse
    intro hcon
    rw [hcon, hbr] at hfalse
    rw [beq_refl_F hmnn] at hfalse
    cases hfalse

/-- `Block_survey.calc_reward_function` on a feasible, non-collapsing tick:
the winning map is returned as the reward surface and the winner's pointings
become `best_fields`. -/
lemma blockCalcCore_feasible {s : BlockSurvey} {cr : CompositeResult}
    {stats : List MaskStat} {b : ℕ} {best : MaskStat}
    (hfeas : blockFeasible s = true)
    (hsm : s.smoothing_kernel = none)
    (hcr : compositeStep true s.npix s.basis_functions s.basis_weights none
      = some cr)
    (hnc : cr.collapsed = false)
    (hstats : s.alt_az_masks.mapM (maskEval s cr) = some stats)
    (hbb : blockBestBlob stats = some b)
    (hbest : stats.get? b = some best) :
    blockCalcCore s = some (RewardVal.surface best.reward_map cr.cmask,
      some best.pointings) := by
  unfold blockCalcCore
  rw [hfeas, if_pos rfl, hsm, hcr, Option.bind_eq_bind, Option.some_bind,
    hnc, if_neg (by decide : ¬ (false = true)), hstats,
    Option.bind_eq_bind, Option.some_bind, hbb,
    Option.bind_eq_bind, Option.some_bind, hbest,
    Option.bind_eq_bind, Option.some_bind]
  rfl

/-- The `__call__` tail on a checked survey with a proper field block, no
field tagging and a single filter: one observation per routed field, the
route being a permutation of the block. -/
lemma blockCallTail_checked {s : BlockSurvey} {chosen : List ℕ}
    (htag : s.tag_fields = false)
    (hf2 : s.filter2 = none)
    (hch : chosen ≠ [])
    (hfld : ∀ f ∈ chosen, f < s.fields_RA.length ∧ f < s.fields_dec.length)
    (htsp : ∀ t : List (F × F), (s.tsp t).Perm (List.range t.length)) :
    ∃ obs border,
      blockCallTail s chosen
        = some ({ s with counter := s.counter + 1 }, obs) ∧
      border.Perm (List.range chosen.length) ∧
      List.Forall₂ (fun indx o => ∃ field, chosen.get? indx = some field ∧
        blockObsFor s field = some o) border obs ∧
      obs.length = chosen.length := by
  have hfr : ∀ i ∈ chosen, i < s.fields_RA.length := fun i hi => (hfld i hi).1
  have hfd : ∀ i ∈ chosen, i < s.fields_dec.length :=
    fun i hi => (hfld i hi).2
  obtain ⟨ras, hras, hraslen⟩ := fancyGet_some hfr
  obtain ⟨decs, hdecs, hdecslen⟩ := fancyGet_some hfd
  have hptslen :
      ((ras.zip decs).map fun pr => s.radec2altaz pr.1 pr.2).length
        = chosen.length := by
    rw [List.length_map, List.length_zip, hraslen, hdecslen]
    omega
  have haltsne :
      (((ras.zip decs).map fun pr => s.radec2altaz pr.1 pr.2).map (·.1))
        ≠ [] := by
    intro hcon
    apply hch
    have h0 := congrArg List.length hcon
    rw [List.length_map, hptslen] at h0
    exact List.length_eq_zero.mp h0
  obtain ⟨c, hc⟩ := projCenterG_some s.fcos s.fsin s.fatan2 s.fsqrt
    (((ras.zip decs).map fun pr => s.radec2altaz pr.1 pr.2).map (·.2))
    haltsne
  have hc2 : projCenter s
      (((ras.zip decs).map fun pr => s.radec2altaz pr.1 pr.2).map (·.1))
      (((ras.zip decs).map fun pr => s.radec2altaz pr.1 pr.2).map (·.2))
      = some c := hc
  have htownslen :
      (((((ras.zip decs).map fun pr => s.radec2altaz pr.1 pr.2).map
            (·.2)).zip
          (((ras.zip decs).map fun pr => s.radec2altaz pr.1 pr.2).map
            (·.1))).map
        fun pr => s.gnomonic pr.1 pr.2 c.1 c.2).length = chosen.length := by
    simp only [List.length_map, List.length_zip, hraslen, hdecslen]
    omega
  set towns :=
      (((((ras.zip decs).map fun pr => s.radec2altaz pr.1 pr.2).map
            (·.2)).zip
          (((ras.zip decs).map fun pr => s.radec2altaz pr.1 pr.2).map
            (·.1))).map
        fun pr => s.gnomonic pr.1 pr.2 c.1 c.2) with htownsdef
  have hperm : (s.tsp towns).Perm (List.range chosen.length) := by
    rw [← htownslen]
    exact htsp towns
  have hbmem : ∀ k ∈ s.tsp towns, k < chosen.length := by
    intro k hk
    have hmr := hperm.mem_iff.mp hk
    rw [List.mem_range] at hmr
    exact hmr
  have hidx : ∀ k ∈ s.tsp towns, ∃ field, chosen.get? k = some field ∧
      field < s.fields_RA.length ∧ field < s.fields_dec.length := by
    intro k hk
    have hklt := hbmem k hk
    have hmem2 : chosen.get ⟨k, hklt⟩ ∈ chosen := List.get_mem chosen k hklt
    exact ⟨chosen.get ⟨k, hklt⟩, List.get?_eq_get hklt,
      (hfld _ hmem2).1, (hfld _ hmem2).2⟩
  obtain ⟨obs, hemit, hfa⟩ := blockEmit_notag_some htag hidx
  have holen : obs.length = chosen.length := by
    rw [← hfa.length_eq, hperm.length_eq, List.length_range]
  refine ⟨obs, s.tsp towns, ?_, hperm, hfa, holen⟩
  unfold blockCallTail
  rw [hras, Option.bind_eq_bind, Option.some_bind, hdecs,
    Option.bind_eq_bind, Option.some_bind]
  have hfin : blockFinish s obs
      = some ({ s with counter := s.counter + 1 }, obs) := by
    unfold blockFinish
    rw [hf2]
    rfl
  refine Option.bind_eq_some.mpr ⟨c, hc2, ?_⟩
  refine Option.bind_eq_some.mpr ⟨obs, hemit, hfin⟩

/-- C5: on a feasible, non-collapsing tick of the masked-block survey, every
alt/az mask with fewer surviving fields than `nvisit_block` is scored `-inf`
(with the int-`0` placeholder); when some mask reaches `nvisit_block`
surviving fields the selected blob has a maximal (hence not `-inf`)
aggregate, ties are broken towards the lowest mask index, the winner is a
qualifying mask whose pointing block has exactly `nvisit_block` fields; and —
single filter, no field tagging, the routing subroutine returning a tour of
its input — `__call__` emits exactly `nvisit_block` pointings, one per
selected field, in the route order. -/
theorem C5_mask_selection_and_block_emission
    (s : BlockSurvey) (cr : CompositeResult) (stats : List MaskStat)
    (hsm : s.smoothing_kernel = none)
    (hfeas : blockFeasible s = true)
    (hcr : compositeStep true s.npix s.basis_functions s.basis_weights none
      = some cr)
    (hnc : cr.collapsed = false)
    (hstats : s.alt_az_masks.mapM (maskEval s cr) = some stats)
    (hq : ∃ j amj stj gpj, s.alt_az_masks.get? j = some amj ∧
      stats.get? j = some stj ∧ maskGoodPairs s cr amj = some gpj ∧
      s.nvisit_block ≤ gpj.length)
    (hK : 0 < s.nvisit_block)
    (hrc : s.reward_checked = false)
    (htag : s.tag_fields = false)
    (hf2 : s.filter2 = none)
    (hfldb : ∀ f ∈ s.hp2fields,
      f < s.fields_RA.length ∧ f < s.fields_dec.length)
    (htsp : ∀ t : List (F × F), (s.tsp t).Perm (List.range t.length)) :
    (∀ i am st gp, s.alt_az_masks.get? i = some am →
      stats.get? i = some st → maskGoodPairs s cr am = some gp →
      gp.length < s.nvisit_block →
      st.reward = F.ninf ∧ st.pointings = BestFields.placeholder) ∧
    ∃ b best chosen, blockBestBlob stats = some b ∧
      stats.get? b = some best ∧
      best.reward ≠ F.ninf ∧
      (∀ st ∈ stats, F.le st.reward best.reward = true) ∧
      (∀ i st, i < b → stats.get? i = some st →
        st.reward ≠ best.reward) ∧
      (∃ amb gpb, s.alt_az_masks.get? b = some amb ∧
        maskGoodPairs s cr amb = some gpb ∧
        s.nvisit_block ≤ gpb.length) ∧
      best.pointings = BestFields.flds chosen ∧
      chosen.length = s.nvisit_block ∧
      blockCalcCore s = some (RewardVal.surface best.reward_map cr.cmask,
        some best.pointings) ∧
      ∃ s2 obs border, blockCall s = some (s2, obs) ∧
        obs.length = s.nvisit_block ∧
        border.Perm (List.range s.nvisit_block) ∧
        List.Forall₂ (fun indx o => ∃ field,
          chosen.get? indx = some field ∧ blockObsFor s field = some o)
          border obs := by
  have hfin := filledData_fin s cr hcr hnc
  have hfa := mapM_forall₂ (maskEval s cr) hstats
  refine ⟨?_, ?_⟩
  · intro i am st gp ham hst hgp hlt
    exact maskEval_below (forall₂_get? hfa ham hst) hgp hlt
  obtain ⟨j, amj, stj, gpj, hamj, hstj, hgpj, hKj⟩ := hq
  have hmej : maskEval s cr amj = some stj := forall₂_get? hfa hamj hstj
  have hbne : stats ≠ [] := by
    intro hcon
    rw [hcon] at hstj
    cases hstj
  have hnn : ∀ st ∈ stats, st.reward ≠ F.nan := by
    intro st hst
    obtain ⟨am, _, hrel⟩ := forall₂_mem_right hfa st hst
    rcases maskEval_reward_cases hfin hrel with h | ⟨q, h⟩
    · rw [h]
      intro hcon
      cases hcon
    · rw [h]
      intro hcon
      cases hcon
  obtain ⟨b, best, hbb, hbest, hmax, hleast⟩ := blockBestBlob_spec hnn hbne
  obtain ⟨qj, hqj⟩ := maskEval_qualifier hfin hmej hgpj hKj
  have hbnin : best.reward ≠ F.ninf := by
    intro hcon
    have hlej := hmax stj (List.get?_mem hstj)
    rw [hqj, hcon] at hlej
    simp [F.le] at hlej
  obtain ⟨amb, hamb, hmeb⟩ := forall₂_get_right hfa hbest
  obtain ⟨gpb, chosen, hgpb, hKb, hpt, hlenb, hchmem⟩ :=
    maskEval_selected hmeb hbnin
  have hcore := blockCalcCore_feasible hfeas hsm hcr hnc hstats hbb hbest
  refine ⟨b, best, chosen, hbb, hbest, hbnin, hmax, hleast,
    ⟨amb, gpb, hamb, hgpb, hKb⟩, hpt, hlenb, hcore, ?_⟩
  rw [hpt] at hcore
  set s1 : BlockSurvey := { s with
    reward_checked := true
    reward := some (RewardVal.surface best.reward_map cr.cmask)
    best_fields := some (BestFields.flds chosen) } with hs1
  have hcalc : blockCalc s
      = some (s1, RewardVal.surface best.reward_map cr.cmask) := by
    unfold blockCalc
    rw [hcore]
    rfl
  have hch : chosen ≠ [] := by
    intro hcon
    rw [hcon] at hlenb
    simp at hlenb
    omega
  have hfldc : ∀ f ∈ chosen,
      f < s.fields_RA.length ∧ f < s.fields_dec.length := by
    intro f hf
    obtain ⟨p, hp, hpf⟩ := List.mem_map.mp (hchmem f hf)
    rw [← hpf]
    exact hfldb p.1 (maskGoodPairs_ids hgpb p hp)
  have htag1 : s1.tag_fields = false := htag
  have hf21 : s1.filter2 = none := hf2
  have hfld1 : ∀ f ∈ chosen,
      f < s1.fields_RA.length ∧ f < s1.fields_dec.length := hfldc
  have htsp1 : ∀ t : List (F × F), (s1.tsp t).Perm (List.range t.length) :=
    htsp
  obtain ⟨obs, border, htail, hperm, hfa2, holen⟩ :=
    blockCallTail_checked htag1 hf21 hch hfld1 htsp1
  have hcall : blockCall s = blockCallTail s1 chosen := by
    unfold blockCall
    rw [hrc, if_neg (by decide : ¬ (false = true)), hcalc]
    rfl
  refine ⟨{ s1 with counter := s1.counter + 1 }, obs, border, ?_, ?_, ?_, ?_⟩
  · rw [hcall, htail]
  · rw [holen, hlenb]
  · rw [← hlenb]
    exact hperm
  · exact hfa2

/-- A ten-cell masked-block survey with two alt/az masks: mask A covers all
ten fields (composite reward 10 per cell, aggregate 50 over a block of 5)
and mask B only the first three; the interpolation passes masks through and
the routing subroutine returns its input order. -/
def exBlockC5 : BlockSurvey :=
  { exBlockInf with
    mounted_filters := ["r"]
    npix := 10
    basis_functions := [fun _ =>
      ⟨List.replicate 10 (F.fin 10), some (List.replicate 10 false)⟩]
    basis_weights := [F.fin 1]
    alt_az_masks := [List.replicate 10 (F.fin 1),
      [F.fin 1, F.fin 1, F.fin 1, F.fin 0, F.fin 0, F.fin 0, F.fin 0,
        F.fin 0, F.fin 0, F.fin 0]]
    hp2fields := [0, 1, 2, 3, 4, 5, 6, 7, 8, 9]
    nvisit_block := 5
    interp := fun am _ _ => am
    altaz_alt := List.replicate 10 (F.fin 0)
    altaz_az := List.replicate 10 (F.fin 0)
    fields_RA := List.replicate 10 (F.fin 0)
    fields_dec := List.replicate 10 (F.fin 0)
    tsp := fun t => List.range t.length }

/-- The composite surface of `exBlockC5`: reward 10 at every cell, nothing
masked, no collapse. -/
def crC5 : CompositeResult :=
  ⟨List.replicate 10 (F.fin 10), List.replicate 10 false, false,
    [⟨List.replicate 10 (F.fin 10), some (List.replicate 10 false)⟩]⟩

/-- The per-mask statistics of `exBlockC5`: mask A scores 50 with the top
five fields, mask B is below the block size and scores `-inf`. -/
def statsC5 : List MaskStat :=
  [⟨List.replicate 10 (F.fin 10), BestFields.flds [9, 8, 7, 6, 5],
      F.fin 50⟩,
   ⟨[F.fin 10, F.fin 10, F.fin 10, UNSEEN, UNSEEN, UNSEEN, UNSEEN, UNSEEN,
       UNSEEN, UNSEEN], BestFields.placeholder, F.ninf⟩]

/-- C5 witness: in the two-mask scenario — mask A covering ten fields at
reward 10 each (aggregate 50), mask B covering only three, block size 5 —
the survey call succeeds and emits exactly five pointings. -/
theorem C5_mask_selection_witness :
    ∃ s2 obs, blockCall exBlockC5 = some (s2, obs) ∧
      obs.length = exBlockC5.nvisit_block := by
  obtain ⟨_, b, best, chosen, hbb, hbest, hbnin, hmax, hleast, hqual, hpt,
    hlen, hcore, s2, obs, border, hcall, holen, hperm, hford⟩ :=
    C5_mask_selection_and_block_emission exBlockC5 crC5 statsC5 rfl
      (by decide) (by decide) (by decide) (by decide)
      ⟨0, List.replicate 10 (F.fin 1),
        ⟨List.replicate 10 (F.fin 10), BestFields.flds [9, 8, 7, 6, 5],
          F.fin 50⟩,
        (List.range 10).map fun i => (i, F.fin 10),
        by decide, by decide, by decide, by decide⟩
      (by decide) rfl rfl rfl (by decide) (fun t => List.Perm.refl _)
  exact ⟨s2, obs, hcall, holen⟩
